import Mathlib

/-!
Shallow embedding of the diff-rendering core of the `differential` repository
(package `internal/diff`: `types.go`, the highlighter file, `renderer.go`'s
parser and renderers), together with theorems checking the natural-language
specification against it.

Go strings are modelled as `List Nat` (their UTF-8 bytes); Go `len` is
`List.length`, Go byte indexing is positional.  Loops indexing a string by a
running byte index are embedded as structural recursion on the remaining
suffix, which is equivalent because every jump in the Go code moves the index
past the bytes consumed.
-/

/-- `types.go`: `LineType` — kind of a diff line. -/
inductive LineType where
  | LineContext : LineType
  | LineAdded : LineType
  | LineRemoved : LineType
deriving DecidableEq, Repr

export LineType (LineContext LineAdded LineRemoved)

/-- `types.go`: `Segment` — a highlighted byte range within a line.
Go's field `Type` is a Lean keyword, so it is rendered `Ty` here. -/
structure Segment where
  Start : Nat
  End : Nat
  Ty : LineType
  Text : List Nat
deriving DecidableEq, Repr

/-- `types.go`: `DiffLine`. -/
structure DiffLine where
  OldLineNo : Nat
  NewLineNo : Nat
  Kind : LineType
  Content : List Nat
  Segments : List Segment
deriving DecidableEq, Repr

/-- `types.go`: `Hunk`. -/
structure Hunk where
  Header : List Nat
  Lines : List DiffLine
deriving DecidableEq, Repr

/-- `types.go`: `DiffResult`. -/
structure DiffResult where
  OldFile : List Nat
  NewFile : List Nat
  Hunks : List Hunk
  IsBinary : Bool
deriving DecidableEq, Repr

/-- `types.go`: `LinePair`; the Go `*DiffLine` fields (nil-able pointers into
the hunk's line slice) are modelled as `Option DiffLine` values. -/
structure LinePair where
  Left : Option DiffLine
  Right : Option DiffLine
deriving DecidableEq, Repr

/-- `types.go`: `RenderOptions` (fields not read by the embedded code paths are
kept for shape). -/
structure RenderOptions where
  Width : Int
  ShowLineNumbers : Bool
  ContextLines : Nat
  TabWidth : Nat
deriving DecidableEq, Repr

/-! ### UTF-8, as used by Go's `unicode/utf8` package

`utf8.DecodeRuneInString` is embedded as `utf8Decode`: on a clean multi-byte
sequence it returns the code point and its size; on an invalid byte it returns
(U+FFFD, 1); on an empty string (U+FFFD, 0).  The accept ranges below are
exactly Go's (`utf8.acceptRanges`): no surrogates, no overlong forms, max
U+10FFFF.  Masks and shifts of the Go code are written as arithmetic on the
same ranges. -/

/-- Clean UTF-8 decode of the first code point: `some (rune, size)` iff the
prefix is a well-formed sequence per Go's `utf8` accept ranges. -/
def utf8DecodeClean : List Nat → Option (Nat × Nat)
  | [] => none
  | b0 :: rest =>
    if b0 < 0x80 then some (b0, 1)
    else if 0xC2 ≤ b0 ∧ b0 ≤ 0xDF then
      match rest with
      | b1 :: _ =>
        if 0x80 ≤ b1 ∧ b1 ≤ 0xBF then some ((b0 - 0xC0) * 64 + (b1 - 0x80), 2)
        else none
      | [] => none
    else if 0xE0 ≤ b0 ∧ b0 ≤ 0xEF then
      match rest with
      | b1 :: b2 :: _ =>
        if ((b0 = 0xE0 ∧ 0xA0 ≤ b1 ∧ b1 ≤ 0xBF) ∨
            (b0 = 0xED ∧ 0x80 ≤ b1 ∧ b1 ≤ 0x9F) ∨
            (b0 ≠ 0xE0 ∧ b0 ≠ 0xED ∧ 0x80 ≤ b1 ∧ b1 ≤ 0xBF)) ∧
           (0x80 ≤ b2 ∧ b2 ≤ 0xBF) then
          some ((b0 - 0xE0) * 4096 + (b1 - 0x80) * 64 + (b2 - 0x80), 3)
        else none
      | _ => none
    else if 0xF0 ≤ b0 ∧ b0 ≤ 0xF4 then
      match rest with
      | b1 :: b2 :: b3 :: _ =>
        if ((b0 = 0xF0 ∧ 0x90 ≤ b1 ∧ b1 ≤ 0xBF) ∨
            (b0 = 0xF4 ∧ 0x80 ≤ b1 ∧ b1 ≤ 0x8F) ∨
            (b0 ≠ 0xF0 ∧ b0 ≠ 0xF4 ∧ 0x80 ≤ b1 ∧ b1 ≤ 0xBF)) ∧
           (0x80 ≤ b2 ∧ b2 ≤ 0xBF) ∧ (0x80 ≤ b3 ∧ b3 ≤ 0xBF) then
          some ((b0 - 0xF0) * 262144 + (b1 - 0x80) * 4096 + (b2 - 0x80) * 64 + (b3 - 0x80), 4)
        else none
      | _ => none
    else none

/-- `utf8.DecodeRuneInString`: clean decode, or (U+FFFD, 1) on an invalid
prefix, (U+FFFD, 0) on an empty string. -/
def utf8Decode (l : List Nat) : Nat × Nat :=
  match utf8DecodeClean l with
  | some rs => rs
  | none => (0xFFFD, if l = [] then 0 else 1)

/-- UTF-8 encoding of a valid scalar value (Go `utf8.AppendRune` for valid
runes). -/
def encodeValidUtf8 (r : Nat) : List Nat :=
  if r < 0x80 then [r]
  else if r < 0x800 then [0xC0 + r / 64, 0x80 + r % 64]
  else if r < 0x10000 then [0xE0 + r / 4096, 0x80 + (r / 64) % 64, 0x80 + r % 64]
  else [0xF0 + r / 262144, 0x80 + (r / 4096) % 64, 0x80 + (r / 64) % 64, 0x80 + r % 64]

/-- `strings.Builder.WriteRune`: surrogates and out-of-range values are
replaced by U+FFFD, otherwise the UTF-8 encoding is appended. -/
def writeRune (r : Nat) : List Nat :=
  if (0xD800 ≤ r ∧ r < 0xE000) ∨ 0x10FFFF < r then encodeValidUtf8 0xFFFD
  else encodeValidUtf8 r

theorem utf8DecodeClean_size_pos {l : List Nat} {r s : Nat}
    (h : utf8DecodeClean l = some (r, s)) : 1 ≤ s ∧ s ≤ l.length := by
  rcases l with _ | ⟨b0, rest⟩
  · simp [utf8DecodeClean] at h
  rcases rest with _ | ⟨b1, rest⟩
  · simp only [utf8DecodeClean] at h
    split_ifs at h <;> simp_all
  rcases rest with _ | ⟨b2, rest⟩
  · simp only [utf8DecodeClean] at h
    split_ifs at h <;> simp_all <;> omega
  rcases rest with _ | ⟨b3, rest⟩
  · simp only [utf8DecodeClean] at h
    split_ifs at h <;> simp_all <;> omega
  · simp only [utf8DecodeClean] at h
    split_ifs at h <;> simp_all <;> omega

/-- Go `utf8.ValidString` on the byte model: every position decodes cleanly. -/
def validUtf8 : List Nat → Bool
  | [] => true
  | b :: rest =>
    match h : utf8DecodeClean (b :: rest) with
    | some (_, s) => validUtf8 ((b :: rest).drop s)
    | none => false
termination_by l => l.length
decreasing_by
  have hs := utf8DecodeClean_size_pos h
  simp only [List.length_drop, List.length_cons]
  omega

/-! ### The ANSI escape-sequence regex

Several functions share the regex
`\x1b(?:[@-Z\\-_]|\[[0-9?]*(?:;[0-9?]*)*[@-~])`:
ESC followed by either one byte in the class `[@-Z\\-_]`
(0x40–0x5A or 0x5C–0x5F), or by `[` and any run of parameter bytes
(digits, `?`, `;` — the grammar `[0-9?]*(?:;[0-9?]*)*` accepts exactly the
strings over that three-symbol alphabet) closed by one final byte in `[@-~]`
(0x40–0x7E).  Because the parameter set and the final-byte set are disjoint
and the alternatives differ on the byte after ESC, the regex match at a
position is unique and self-delimiting, so it is embedded as the
deterministic recognizer below.  `FindAllStringIndex`'s non-overlapping
leftmost match list, and the Go loops' `match[0] == byteIdx` membership
tests, agree with running this recognizer at each visited position: no match
can begin strictly inside another (every byte of a match after its first is
not ESC), and the loops advance past each match they take. -/

/-- Second byte class of the two-byte alternative `[@-Z\\-_]`. -/
def twoByteClass (c : Nat) : Bool :=
  (0x40 ≤ c && c ≤ 0x5A) || (0x5C ≤ c && c ≤ 0x5F)

/-- CSI parameter bytes `[0-9?;]`. -/
def isParamByte (c : Nat) : Bool :=
  (0x30 ≤ c && c ≤ 0x39) || c = 0x3F || c = 0x3B

/-- CSI final bytes `[@-~]`. -/
def isFinalByte (c : Nat) : Bool :=
  0x40 ≤ c && c ≤ 0x7E

/-- Length of the body of a CSI sequence starting after `ESC [`:
parameter bytes then one final byte; `k` counts the bytes already matched. -/
def matchCsi : List Nat → Nat → Option Nat
  | [], _ => none
  | c :: rest, k =>
    if isParamByte c then matchCsi rest (k + 1)
    else if isFinalByte c then some (k + 1)
    else none

/-- `matchAnsi l = some n` iff the ANSI regex matches a length-`n` prefix
of `l`. -/
def matchAnsi : List Nat → Option Nat
  | b :: c :: rest =>
    if b = 0x1B then
      if twoByteClass c then some 2
      else if c = 0x5B then matchCsi rest 2
      else none
    else none
  | _ => none

theorem matchCsi_ge {l : List Nat} {k n : Nat} (h : matchCsi l k = some n) :
    k + 1 ≤ n ∧ n ≤ k + l.length := by
  induction l generalizing k with
  | nil => simp [matchCsi] at h
  | cons c rest ih =>
    simp only [matchCsi] at h
    split_ifs at h with h1 h2
    · have := ih h
      simp only [List.length_cons]
      omega
    · simp only [Option.some.injEq] at h
      simp only [List.length_cons]
      omega

theorem matchAnsi_ge_two {l : List Nat} {n : Nat} (h : matchAnsi l = some n) :
    2 ≤ n ∧ n ≤ l.length := by
  match l with
  | [] => simp [matchAnsi] at h
  | [b] => simp [matchAnsi] at h
  | b :: c :: rest =>
    simp only [matchAnsi] at h
    split_ifs at h with h0 h1 h2
    · simp only [Option.some.injEq] at h
      simp only [List.length_cons]
      omega
    · have := matchCsi_ge h
      simp only [List.length_cons]
      omega

/-- The reset sequence `"\x1b[0m"`. -/
def escReset : List Nat := [0x1B, 0x5B, 0x30, 0x6D]

/-- UTF-8 bytes of a Lean string literal (used to write concrete inputs). -/
def strBytes (s : String) : List Nat :=
  (s.data.map (fun c => encodeValidUtf8 c.toNat)).flatten

/-- `StripANSI` (highlighter file): `ReplaceAllString` of the ANSI regex with
the empty string, i.e. delete every leftmost non-overlapping match and keep
all other bytes. -/
def StripANSI : List Nat → List Nat
  | [] => []
  | b :: rest =>
    match h : matchAnsi (b :: rest) with
    | some n => StripANSI ((b :: rest).drop n)
    | none => b :: StripANSI rest
termination_by l => l.length
decreasing_by
  · have := matchAnsi_ge_two h
    simp only [List.length_drop, List.length_cons]
    omega
  · simp only [List.length_cons]
    omega

/-- Lookup in the Go map `map[int]string`, modelled as an association list
where assignment prepends (the first hit is the current binding). -/
def mapLookup (m : List (Nat × List Nat)) (k : Nat) : Option (List Nat) :=
  (m.find? (fun p => p.1 == k)).map (fun p => p.2)

/-- Go map assignment `m[k] = v`. -/
def mapInsert (m : List (Nat × List Nat)) (k : Nat) (v : List Nat) :
    List (Nat × List Nat) :=
  (k, v) :: m

/-- First pass of `ApplyHighlighting`: build the `ansiSequences` table
(visible position → the styling sequence in effect there).  `vi` is
`visibleIdx`, `lastSeq` is `lastAnsiSeq` (initially the reset sequence).
The Go loop also fills `visibleToBytePos`, which no later code reads, so that
table is not modelled. -/
def pass1 : List Nat → Nat → List Nat → List (Nat × List Nat) → List (Nat × List Nat)
  | [], _, _, m => m
  | b :: rest, vi, lastSeq, m =>
    match h : matchAnsi (b :: rest) with
    | some n =>
      pass1 ((b :: rest).drop n) vi ((b :: rest).take n)
        (mapInsert m vi ((b :: rest).take n))
    | none =>
      pass1 ((b :: rest).drop (utf8Decode (b :: rest)).2) (vi + 1) lastSeq
        (if (mapLookup m vi).isSome then m else mapInsert m vi lastSeq)
termination_by l => l.length
decreasing_by
  · have := matchAnsi_ge_two h
    simp only [List.length_drop, List.length_cons]
    omega
  · have h1 : 1 ≤ (utf8Decode (b :: rest)).2 := by
      unfold utf8Decode
      rcases h2 : utf8DecodeClean (b :: rest) with _ | ⟨r, s⟩
      · simp
      · simpa using (utf8DecodeClean_size_pos h2).1
    simp only [List.length_drop, List.length_cons]
    omega

/-- The inner `for _, seg := range segments` loop of `ApplyHighlighting`'s
second pass at one visible position: emits the highlight-start sequence on
entering a segment and reset-plus-recorded-style on leaving one, threading
`inSelection`. -/
def segBoundary : List Segment → LineType → List Nat → List (Nat × List Nat) →
    Bool → Nat → List Nat × Bool
  | [], _, _, _, inSel, _ => ([], inSel)
  | seg :: rest, st, hs, m, inSel, pos =>
    if seg.Ty = st then
      let step1 : List Nat × Bool :=
        if pos = seg.Start ∧ inSel = false then (hs, true) else ([], inSel)
      let step2 : List Nat × Bool :=
        if pos = seg.End ∧ step1.2 = true then
          (step1.1 ++ escReset ++ (mapLookup m pos).getD [], false)
        else step1
      let r := segBoundary rest st hs m step2.2 pos
      (step2.1 ++ r.1, r.2)
    else segBoundary rest st hs m inSel pos

/-- Second pass of `ApplyHighlighting`: copy ANSI sequences verbatim, and
around each visible code point run the segment-boundary loop, then re-encode
the decoded rune (`sb.WriteRune`); a final reset is emitted if the string
ends inside a selection. -/
def pass2 : List Nat → List Segment → LineType → List Nat → List (Nat × List Nat) →
    Bool → Nat → List Nat
  | [], _, _, _, _, inSel, _ => if inSel then escReset else []
  | b :: rest, segs, st, hs, m, inSel, pos =>
    match h : matchAnsi (b :: rest) with
    | some n => (b :: rest).take n ++ pass2 ((b :: rest).drop n) segs st hs m inSel pos
    | none =>
      (segBoundary segs st hs m inSel pos).1 ++
        writeRune (utf8Decode (b :: rest)).1 ++
        pass2 ((b :: rest).drop (utf8Decode (b :: rest)).2) segs st hs m
          (segBoundary segs st hs m inSel pos).2 (pos + 1)
termination_by l => l.length
decreasing_by
  · have := matchAnsi_ge_two h
    simp only [List.length_drop, List.length_cons]
    omega
  · have h1 : 1 ≤ (utf8Decode (b :: rest)).2 := by
      unfold utf8Decode
      rcases h2 : utf8DecodeClean (b :: rest) with _ | ⟨r, s⟩
      · simp
      · simpa using (utf8DecodeClean_size_pos h2).1
    simp only [List.length_drop, List.length_cons]
    omega

/-- `ApplyHighlighting` (highlighter file): early return on an empty segment
list, else the two passes over `content`. -/
def ApplyHighlighting (content : List Nat) (segments : List Segment)
    (segmentType : LineType) (highlightStyle : List Nat) : List Nat :=
  if segments.length = 0 then content
  else pass2 content segments segmentType highlightStyle
    (pass1 content 0 escReset []) false 0

/-! ### Intraline highlighting

`HighlightIntralineChanges` calls go-diff's `diffmatchpatch` (`DiffMain`
followed by `DiffCleanupSemantic`), an external dependency whose sources are
not part of this repository; it enters the embedding as an explicit function
parameter `dmp` returning the operation list. -/

/-- `diffmatchpatch.Operation` tags. -/
inductive DmpOp where
  | DiffDelete : DmpOp
  | DiffInsert : DmpOp
  | DiffEqual : DmpOp
deriving DecidableEq, Repr

/-- One `diffmatchpatch.Diff` element. -/
structure DmpDiff where
  Op : DmpOp
  Text : List Nat
deriving DecidableEq, Repr

/-- The segment-building walk of `HighlightIntralineChanges`: old/new byte
offsets advance by the byte length of each operation's text; deletes produce
Removed segments at the old offset, inserts Added segments at the new offset,
equals produce none. -/
def buildSegs : List DmpDiff → Nat → Nat → List Segment × List Segment
  | [], _, _ => ([], [])
  | d :: ds, oldPos, newPos =>
    match d.Op with
    | DmpOp.DiffDelete =>
      let r := buildSegs ds (oldPos + d.Text.length) newPos
      (⟨oldPos, oldPos + d.Text.length, LineRemoved, d.Text⟩ :: r.1, r.2)
    | DmpOp.DiffInsert =>
      let r := buildSegs ds oldPos (newPos + d.Text.length)
      (r.1, ⟨newPos, newPos + d.Text.length, LineAdded, d.Text⟩ :: r.2)
    | DmpOp.DiffEqual => buildSegs ds (oldPos + d.Text.length) (newPos + d.Text.length)

/-- The scan of `HighlightIntralineChanges` over a hunk's lines: an adjacent
Removed/Added pair gets its `Segments` fields replaced from the edit script
and the scan advances past both lines; any other line is left untouched. -/
def hilLines (dmp : List Nat → List Nat → List DmpDiff) : List DiffLine → List DiffLine
  | [] => []
  | [a] => [a]
  | a :: b :: rest =>
    if a.Kind = LineRemoved ∧ b.Kind = LineAdded then
      { a with Segments := (buildSegs (dmp a.Content b.Content) 0 0).1 } ::
      { b with Segments := (buildSegs (dmp a.Content b.Content) 0 0).2 } ::
      hilLines dmp rest
    else a :: hilLines dmp (b :: rest)
termination_by l => l.length

/-- `HighlightIntralineChanges` (highlighter file), with the external
character-diff primitive passed as `dmp`. -/
def HighlightIntralineChanges (dmp : List Nat → List Nat → List DmpDiff)
    (h : Hunk) : Hunk :=
  { h with Lines := hilLines dmp h.Lines }

/-! ### The unified-diff parser (`renderer.go`, `ParseUnifiedDiff`)

`bufio.Scanner` over a `strings.Reader` splits the text at newlines,
dropping one trailing carriage return per line and producing no empty final
token when the text ends in a newline; for an in-memory string its error
channel only fires on the scanner's own token-size cap, which this byte-level
model does not reproduce, so the embedded parser is total. -/

def isDigitByte (c : Nat) : Bool := 0x30 ≤ c && c ≤ 0x39

/-- Go regexp `\s`: `[\t\n\f\r ]`. -/
def isSpaceByte (c : Nat) : Bool :=
  c = 9 || c = 10 || c = 12 || c = 13 || c = 32

/-- `bufio.ScanLines`' `dropCR`. -/
def dropCR (l : List Nat) : List Nat :=
  if l.getLast? = some 0x0D then l.dropLast else l

/-- Split at the first newline byte: the text before it, and `some` remainder
when a newline was found. -/
def breakLine : List Nat → List Nat × Option (List Nat)
  | [] => ([], none)
  | c :: rest =>
    if c = 10 then ([], some rest)
    else ((c :: (breakLine rest).1, (breakLine rest).2) : List Nat × Option (List Nat))

theorem breakLine_rest_lt :
    ∀ (l r2 : List Nat), (breakLine l).2 = some r2 → r2.length < l.length := by
  intro l
  induction l with
  | nil => intro r2 h; simp [breakLine] at h
  | cons c rest ih =>
    intro r2 h
    simp only [breakLine] at h
    split_ifs at h with hc
    · simp only [Option.some.injEq] at h
      subst h
      simp only [List.length_cons]
      omega
    · have := ih r2 h
      simp only [List.length_cons]
      omega

/-- `bufio.Scanner` with `ScanLines` over the whole text. -/
def splitLines : List Nat → List (List Nat)
  | [] => []
  | b :: rest =>
    dropCR (breakLine (b :: rest)).1 ::
      (match h : (breakLine (b :: rest)).2 with
       | none => []
       | some r2 => splitLines r2)
termination_by l => l.length
decreasing_by
  exact breakLine_rest_lt _ _ h

/-- `binaryFileRegex`: `^Binary files? .* differ$` — an optional-plural
prefix, any middle, and the literal suffix `" differ"`. -/
def isBinaryLine (l : List Nat) : Bool :=
  (List.isPrefixOf (strBytes "Binary files ") l ||
   List.isPrefixOf (strBytes "Binary file ") l) &&
  List.isSuffixOf (strBytes " differ") l &&
  decide ((if List.isPrefixOf (strBytes "Binary files ") l then 13 else 12) + 7 ≤ l.length)

/-- The date part `\d{4}-\d{2}-\d{2}` followed by anything. -/
def matchDate : List Nat → Bool
  | d1 :: d2 :: d3 :: d4 :: h1 :: e1 :: e2 :: h2 :: f1 :: f2 :: _ =>
    isDigitByte d1 && isDigitByte d2 && isDigitByte d3 && isDigitByte d4 &&
    h1 == 0x2D && isDigitByte e1 && isDigitByte e2 &&
    h2 == 0x2D && isDigitByte f1 && isDigitByte f2
  | _ => false

/-- The optional trailing-timestamp group `(?:\s+\d{4}-\d{2}-\d{2}.*)?$`
applied to the text after the filename capture. -/
def timestampOrEnd (l : List Nat) : Bool :=
  l = [] ||
  (l.takeWhile isSpaceByte ≠ [] && matchDate (l.dropWhile isSpaceByte))

/-- The non-greedy filename capture `(.+?)`: the shortest nonempty prefix
whose remainder satisfies `timestampOrEnd`. -/
def fileCapture : List Nat → List Nat → Option (List Nat)
  | _, [] => none
  | acc, c :: rest =>
    if timestampOrEnd rest then some (acc ++ [c])
    else fileCapture (acc ++ [c]) rest

/-- `oldFileRegex` / `newFileRegex`
(`^--- (?:a/)?(.+?)(?:\s+\d{4}-\d{2}-\d{2}.*)?$` and the `+++ `/`b/`
variant): returns the captured filename.  The optional VCS prefix is
consumed when doing so leaves a nonempty remainder (otherwise the engine
backtracks, since `.+?` needs at least one character). -/
def parseFileHeader (marker vcs l : List Nat) : Option (List Nat) :=
  if List.isPrefixOf marker l then
    let r := l.drop marker.length
    fileCapture []
      (if List.isPrefixOf vcs r ∧ r.drop vcs.length ≠ [] then r.drop vcs.length else r)
  else none

/-- `strconv.Atoi` on a digit run. -/
def digitsVal (l : List Nat) : Nat :=
  l.foldl (fun a c => a * 10 + (c - 0x30)) 0

/-- `hunkHeaderRegex`: `^@@ -(\d+)(?:,(\d+))? \+(\d+)(?:,(\d+))? @@` — returns
the two start line numbers (the counts are captured by the Go regex but the
parser ignores them). -/
def parseHunkHeader (l : List Nat) : Option (Nat × Nat) :=
  if List.isPrefixOf (strBytes "@@ -") l then
    let r := l.drop 4
    let d1 := r.takeWhile isDigitByte
    let r1 := r.dropWhile isDigitByte
    if d1 = [] then none
    else
      let afterOld : Option (List Nat) :=
        match r1 with
        | c :: rs =>
          if c = 0x2C then
            let d2 := rs.takeWhile isDigitByte
            if d2 = [] then none else some (rs.dropWhile isDigitByte)
          else some r1
        | [] => some r1
      match afterOld with
      | none => none
      | some r2 =>
        if List.isPrefixOf (strBytes " +") r2 then
          let r3 := r2.drop 2
          let d3 := r3.takeWhile isDigitByte
          let r4 := r3.dropWhile isDigitByte
          if d3 = [] then none
          else
            let afterNew : Option (List Nat) :=
              match r4 with
              | c :: rs =>
                if c = 0x2C then
                  let d4 := rs.takeWhile isDigitByte
                  if d4 = [] then none else some (rs.dropWhile isDigitByte)
                else some r4
              | [] => some r4
            match afterNew with
            | none => none
            | some r5 =>
              if List.isPrefixOf (strBytes " @@") r5 then
                some (digitsVal d1, digitsVal d3)
              else none
        else none
  else none

/-- `parseDiffLine` (`renderer.go`): Go passes the line counters by pointer;
the embedding returns the produced line together with the updated counters. -/
def parseDiffLine (line : List Nat) (oldLine newLine : Nat) :
    DiffLine × Nat × Nat :=
  match line with
  | [] =>
    ({ OldLineNo := oldLine, NewLineNo := newLine, Kind := LineContext,
       Content := [], Segments := [] }, oldLine, newLine)
  | c :: rest =>
    if c = 43 then
      ({ OldLineNo := 0, NewLineNo := newLine, Kind := LineAdded,
         Content := rest, Segments := [] }, oldLine, newLine + 1)
    else if c = 45 then
      ({ OldLineNo := oldLine, NewLineNo := 0, Kind := LineRemoved,
         Content := rest, Segments := [] }, oldLine + 1, newLine)
    else if c = 32 then
      ({ OldLineNo := oldLine, NewLineNo := newLine, Kind := LineContext,
         Content := rest, Segments := [] }, oldLine + 1, newLine + 1)
    else
      ({ OldLineNo := oldLine, NewLineNo := newLine, Kind := LineContext,
         Content := c :: rest, Segments := [] }, oldLine + 1, newLine + 1)

/-- The mutable locals of `ParseUnifiedDiff`'s scan loop. -/
structure ParseState where
  inFileHeader : Bool
  currentHunk : Option Hunk
  oldLine : Nat
  newLine : Nat
  oldFile : List Nat
  newFile : List Nat
  hunks : List Hunk
deriving Repr

/-- Flush of `currentHunk` into the hunk list. -/
def flushHunk (st : ParseState) : List Hunk :=
  st.hunks ++ (match st.currentHunk with | some h => [h] | none => [])

/-- The scan loop of `ParseUnifiedDiff`, one case per branch of the Go loop
body, in the Go order: binary short-circuit (an immediate `return`), file
headers while `inFileHeader` (every line is consumed there), hunk header,
`\`-prefixed no-newline marker, and the guarded body-line append. -/
def parseLoop : List (List Nat) → ParseState → DiffResult
  | [], st =>
    { OldFile := st.oldFile, NewFile := st.newFile,
      Hunks := flushHunk st, IsBinary := false }
  | line :: rest, st =>
    if isBinaryLine line then
      { OldFile := st.oldFile, NewFile := st.newFile,
        Hunks := st.hunks, IsBinary := true }
    else if st.inFileHeader then
      match parseFileHeader (strBytes "--- ") (strBytes "a/") line with
      | some f => parseLoop rest { st with oldFile := f }
      | none =>
        match parseFileHeader (strBytes "+++ ") (strBytes "b/") line with
        | some f => parseLoop rest { st with newFile := f, inFileHeader := false }
        | none => parseLoop rest st
    else
      match parseHunkHeader line with
      | some os =>
        parseLoop rest { st with
          hunks := flushHunk st,
          currentHunk := some { Header := line, Lines := [] },
          oldLine := os.1, newLine := os.2 }
      | none =>
        if line.head? = some 92 then parseLoop rest st
        else
          match st.currentHunk with
          | some h =>
            if line ≠ [] then
              parseLoop rest { st with
                currentHunk := some { h with
                  Lines := h.Lines ++ [(parseDiffLine line st.oldLine st.newLine).1] },
                oldLine := (parseDiffLine line st.oldLine st.newLine).2.1,
                newLine := (parseDiffLine line st.oldLine st.newLine).2.2 }
            else parseLoop rest st
          | none => parseLoop rest st

/-- `ParseUnifiedDiff` (`renderer.go`).  The Go function also returns
`scanner.Err()`, which for an in-memory string reader is the only failure
channel (see the section comment); the embedding is the success path. -/
def ParseUnifiedDiff (diffText : List Nat) : DiffResult :=
  if diffText = [] then
    { OldFile := [], NewFile := [], Hunks := [], IsBinary := false }
  else
    parseLoop (splitLines diffText)
      { inFileHeader := true, currentHunk := none, oldLine := 0, newLine := 0,
        oldFile := [], newFile := [], hunks := [] }

/-- `PairLines` (`renderer.go`): the index loop advances by two after pairing
an adjacent Removed/Added couple and by one otherwise. -/
def PairLines : List DiffLine → List LinePair
  | [] => []
  | [a] =>
    match a.Kind with
    | LineRemoved => [⟨some a, none⟩]
    | LineAdded => [⟨none, some a⟩]
    | LineContext => [⟨some a, some a⟩]
  | a :: b :: rest =>
    match a.Kind with
    | LineRemoved =>
      if b.Kind = LineAdded then ⟨some a, some b⟩ :: PairLines rest
      else ⟨some a, none⟩ :: PairLines (b :: rest)
    | LineAdded => ⟨none, some a⟩ :: PairLines (b :: rest)
    | LineContext => ⟨some a, some a⟩ :: PairLines (b :: rest)

/-- The one-line notice `fmt.Sprintf("Binary files %s and %s differ\n", ...)`
returned by both renderers for a binary result. -/
def binaryNotice (result : DiffResult) : List Nat :=
  strBytes "Binary files " ++ result.OldFile ++ strBytes " and " ++
    result.NewFile ++ strBytes " differ\n"

/-- `RenderUnifiedDiff` (`renderer.go`): binary short-circuit, else intraline
highlighting over every hunk followed by per-hunk rendering.  The external
collaborators — the diffmatchpatch primitive, and `renderUnifiedHunk`'s
lipgloss/theme styling (with the theme resolved once per call) — enter as the
parameters `dmp` and `renderHunk` (filename, hunk, options). -/
def RenderUnifiedDiff (dmp : List Nat → List Nat → List DmpDiff)
    (renderHunk : List Nat → Hunk → RenderOptions → List Nat)
    (result : DiffResult) (opts : RenderOptions) : List Nat :=
  if result.IsBinary then binaryNotice result
  else
    ((result.Hunks.map (HighlightIntralineChanges dmp)).map
      (fun h => renderHunk result.NewFile h opts ++ [10])).flatten

/-- `RenderSideBySideDiff` (`renderer.go`): binary short-circuit, else the
column-width computation and per-hunk rendering, with the externals as
parameters (`renderHunkSbs` takes old file, new file, hunk, options, half
width). -/
def RenderSideBySideDiff (dmp : List Nat → List Nat → List DmpDiff)
    (renderHunkSbs : List Nat → List Nat → Hunk → RenderOptions → Int → List Nat)
    (result : DiffResult) (opts : RenderOptions) : List Nat :=
  if result.IsBinary then binaryNotice result
  else
    ((result.Hunks.map (HighlightIntralineChanges dmp)).map
      (fun h => renderHunkSbs result.OldFile result.NewFile h opts
        (if Int.tdiv opts.Width 2 < 40 then 40 else Int.tdiv opts.Width 2) ++ [10])).flatten

/-! ### Concrete inputs used by the claim theorems -/

/-- The highlight style the renderers pass: `"\x1b[48;2;R;G;Bm"`. -/
def hlStyle : List Nat := strBytes "\x1b[48;2;1;2;3m"

/-- Two-byte content `"αb"`: U+03B1 (bytes 0xCE 0xB1) then `b` at byte
offset 2. -/
def alphaB : List Nat := strBytes "αb"

/-- Diff with one complete hunk-shaped section before a binary marker. -/
def binAfterOneHunk : List Nat :=
  strBytes "--- a/x\n+++ b/x\n@@ -1 +1 @@\n-a\nBinary files a/x and b/x differ\n"

/-- Diff with two hunk-shaped sections before a binary marker. -/
def binAfterTwoHunks : List Nat :=
  strBytes "--- a/x\n+++ b/x\n@@ -1 +1 @@\n-a\n@@ -2 +2 @@\n-b\nBinary files a/x and b/x differ\n"

/-- Hunk body containing an empty line between two context lines. -/
def emptyLineDiff : List Nat := strBytes "+++ b/x\n@@ -1,3 +1,3 @@\n a\n\n b\n"

/-- A sample options value. -/
def optsEx : RenderOptions :=
  { Width := 80, ShowLineNumbers := true, ContextLines := 3, TabWidth := 4 }

/-- A binary `DiffResult` with a leftover hunk, for the renderer witnesses. -/
def binResult : DiffResult :=
  { OldFile := strBytes "old.png", NewFile := strBytes "new.png",
    Hunks := [{ Header := strBytes "@@ -1 +1 @@",
                Lines := [{ OldLineNo := 1, NewLineNo := 0, Kind := LineRemoved,
                            Content := strBytes "x", Segments := [] }] }],
    IsBinary := true }

/-- C8's example lines. -/
def lineA : DiffLine :=
  { OldLineNo := 1, NewLineNo := 0, Kind := LineRemoved, Content := strBytes "A", Segments := [] }

/-- C8's example lines. -/
def lineB : DiffLine :=
  { OldLineNo := 0, NewLineNo := 1, Kind := LineAdded, Content := strBytes "B", Segments := [] }

/-- C8's example lines. -/
def lineC : DiffLine :=
  { OldLineNo := 2, NewLineNo := 2, Kind := LineContext, Content := strBytes "C", Segments := [] }

/-! ### Claim theorems -/

/-- C5: for every input `content`, `ApplyHighlighting` with an empty segment
list returns `content` unchanged, byte for byte. -/
theorem claim_C5_empty_segments_noop (content : List Nat) (segType : LineType)
    (hs : List Nat) : ApplyHighlighting content [] segType hs = content := by
  simp [ApplyHighlighting]

/-- C10: for every binary `DiffResult` and every options value, both
renderers — whatever the external diff primitive and the external per-hunk
styling functions do — return exactly the one-line notice
`"Binary files <OldFile> and <NewFile> differ\n"`, with no hunk output and no
intraline highlighting. -/
theorem claim_C10_binary_notice (dmp : List Nat → List Nat → List DmpDiff)
    (renderHunk : List Nat → Hunk → RenderOptions → List Nat)
    (renderHunkSbs : List Nat → List Nat → Hunk → RenderOptions → Int → List Nat)
    (result : DiffResult) (opts : RenderOptions) (hbin : result.IsBinary = true) :
    RenderUnifiedDiff dmp renderHunk result opts =
      strBytes "Binary files " ++ result.OldFile ++ strBytes " and " ++
        result.NewFile ++ strBytes " differ\n" ∧
    RenderSideBySideDiff dmp renderHunkSbs result opts =
      strBytes "Binary files " ++ result.OldFile ++ strBytes " and " ++
        result.NewFile ++ strBytes " differ\n" := by
  constructor
  · simp [RenderUnifiedDiff, hbin, binaryNotice]
  · simp [RenderSideBySideDiff, hbin, binaryNotice]

/-- Witness for C10 at a concrete binary result (which even carries a
leftover hunk and a styling function that would print output: neither shows
up). -/
theorem claim_C10_witness :
    RenderUnifiedDiff (fun _ _ => []) (fun _ h _ => h.Header) binResult optsEx =
      strBytes "Binary files old.png and new.png differ\n" := by
  have h := claim_C10_binary_notice (fun _ _ => []) (fun _ h _ => h.Header)
    (fun _ _ _ _ _ => []) binResult optsEx rfl
  rw [h.1]
  decide

/-- C8: `PairLines` preserves order and applies exactly the pairing policy:
Removed immediately followed by Added gives one two-sided pair consuming
both; an unmatched Removed gives a left-only pair; an Added gives a
right-only pair; a Context line gives a pair referencing the same line on
both sides; and over [Removed A, Added B, Context C] it yields exactly
(A,B) then (C,C). -/
theorem claim_C8_pairlines_policy :
    (PairLines [] = []) ∧
    (∀ (a b : DiffLine) (rest : List DiffLine),
      a.Kind = LineRemoved → b.Kind = LineAdded →
      PairLines (a :: b :: rest) = ⟨some a, some b⟩ :: PairLines rest) ∧
    (∀ (a : DiffLine) (rest : List DiffLine),
      a.Kind = LineRemoved →
      (∀ b rest2, rest = b :: rest2 → b.Kind ≠ LineAdded) →
      PairLines (a :: rest) = ⟨some a, none⟩ :: PairLines rest) ∧
    (∀ (a : DiffLine) (rest : List DiffLine),
      a.Kind = LineAdded →
      PairLines (a :: rest) = ⟨none, some a⟩ :: PairLines rest) ∧
    (∀ (a : DiffLine) (rest : List DiffLine),
      a.Kind = LineContext →
      PairLines (a :: rest) = ⟨some a, some a⟩ :: PairLines rest) ∧
    (∀ (A B C : DiffLine),
      A.Kind = LineRemoved → B.Kind = LineAdded → C.Kind = LineContext →
      PairLines [A, B, C] = [⟨some A, some B⟩, ⟨some C, some C⟩]) := by
  refine ⟨by simp [PairLines], ?_, ?_, ?_, ?_, ?_⟩
  · intro a b rest ha hb
    simp [PairLines, ha, hb]
  · intro a rest ha hnb
    match rest with
    | [] => simp [PairLines, ha]
    | b :: rest2 =>
      have hb := hnb b rest2 rfl
      simp [PairLines, ha, hb]
  · intro a rest ha
    match rest with
    | [] => simp [PairLines, ha]
    | b :: rest2 => simp [PairLines, ha]
  · intro a rest ha
    match rest with
    | [] => simp [PairLines, ha]
    | b :: rest2 => simp [PairLines, ha]
  · intro A B C hA hB hC
    simp [PairLines, hA, hB, hC]

/-- Witness for C8 at the concrete triple of the spec's example. -/
theorem claim_C8_witness :
    PairLines [lineA, lineB, lineC] =
      [⟨some lineA, some lineB⟩, ⟨some lineC, some lineC⟩] :=
  claim_C8_pairlines_policy.2.2.2.2.2 lineA lineB lineC rfl rfl rfl

/-- C2: `types.go` documents `Segment.Start`/`Segment.End` as byte offsets and
`HighlightIntralineChanges` produces them as byte offsets, but
`ApplyHighlighting` compares them against `currentPos`, which advances by one
per visible code point.  At content `"αb"` — where `b` occupies the byte
range [2,3) — the byte-offset segment [2,3) produces no highlight at all
(first conjunct: the output is the unchanged content), while only the
code-point-index segment [1,2) actually highlights `b` (second conjunct). -/
theorem claim_C2_rune_index_not_byte_offset :
    ApplyHighlighting alphaB [⟨2, 3, LineRemoved, strBytes "b"⟩] LineRemoved hlStyle =
      alphaB ∧
    ApplyHighlighting alphaB [⟨1, 2, LineRemoved, strBytes "b"⟩] LineRemoved hlStyle =
      strBytes "α" ++ hlStyle ++ strBytes "b" ++ escReset := by
  constructor
  · simp [ApplyHighlighting, pass1, pass2, segBoundary, alphaB, hlStyle, strBytes,
      encodeValidUtf8, matchAnsi, matchCsi, isParamByte, isFinalByte, twoByteClass,
      utf8Decode, utf8DecodeClean, writeRune, mapLookup, mapInsert, escReset]
  · simp [ApplyHighlighting, pass1, pass2, segBoundary, alphaB, hlStyle, strBytes,
      encodeValidUtf8, matchAnsi, matchCsi, isParamByte, isFinalByte, twoByteClass,
      utf8Decode, utf8DecodeClean, writeRune, mapLookup, mapInsert, escReset]

/-- C4: a non-empty hunk-body line with an unrecognized first character does
become a Context line carrying the whole text, and `parseDiffLine`'s own
empty-line branch would produce a Context line with empty content — but the
call-site guard `len(line) > 0` drops empty lines before `parseDiffLine` ever
sees them: parsing `" a\n\n b\n"` inside a hunk yields only the two context
lines, not three. -/
theorem claim_C4_empty_line_dropped :
    ((ParseUnifiedDiff emptyLineDiff).Hunks.map fun h =>
        h.Lines.map fun l => (l.Kind, l.Content)) =
      [[(LineContext, strBytes "a"), (LineContext, strBytes "b")]] ∧
    (parseDiffLine [] 5 7).1 =
      { OldLineNo := 5, NewLineNo := 7, Kind := LineContext,
        Content := [], Segments := [] } := by
  constructor
  · simp [ParseUnifiedDiff, emptyLineDiff, splitLines, parseLoop, breakLine, dropCR,
      isBinaryLine, strBytes, parseFileHeader, parseHunkHeader, parseDiffLine,
      fileCapture, timestampOrEnd, matchDate, flushHunk, encodeValidUtf8, digitsVal,
      isDigitByte, isSpaceByte]
  · decide

/-- C3's counterexample: with two complete hunk-shaped sections before the
binary marker, the first hunk — flushed when the second hunk header was seen
— survives into the result, so the hunk list is not empty. -/
theorem claim_C3_counterexample :
    (ParseUnifiedDiff binAfterTwoHunks).IsBinary = true ∧
    (ParseUnifiedDiff binAfterTwoHunks).Hunks ≠ [] := by
  constructor
  · simp [ParseUnifiedDiff, binAfterTwoHunks, splitLines, parseLoop, breakLine, dropCR,
      isBinaryLine, strBytes, parseFileHeader, parseHunkHeader, parseDiffLine,
      fileCapture, timestampOrEnd, matchDate, flushHunk, encodeValidUtf8, digitsVal,
      isDigitByte, isSpaceByte]
    decide
  · simp [ParseUnifiedDiff, binAfterTwoHunks, splitLines, parseLoop, breakLine, dropCR,
      isBinaryLine, strBytes, parseFileHeader, parseHunkHeader, parseDiffLine,
      fileCapture, timestampOrEnd, matchDate, flushHunk, encodeValidUtf8, digitsVal,
      isDigitByte, isSpaceByte]
    decide

theorem parseLoop_not_binary_step (line : List Nat) (rest : List (List Nat))
    (st : ParseState) (hb : isBinaryLine line = false) :
    ∃ st2, parseLoop (line :: rest) st = parseLoop rest st2 := by
  simp only [parseLoop, hb, Bool.false_eq_true, if_false]
  repeat' split
  all_goals exact ⟨_, rfl⟩

theorem parseLoop_isBinary (lines : List (List Nat)) :
    ∀ st : ParseState, lines.any isBinaryLine = true →
    (parseLoop lines st).IsBinary = true := by
  induction lines with
  | nil =>
    intro st h
    simp at h
  | cons line rest ih =>
    intro st h
    by_cases hb : isBinaryLine line = true
    · simp [parseLoop, hb]
    · have hb2 : isBinaryLine line = false := by simpa using hb
      obtain ⟨st2, heq⟩ := parseLoop_not_binary_step line rest st hb2
      rw [heq]
      apply ih
      simp only [List.any_cons, hb2, Bool.false_or] at h
      exact h

/-- C3 (amended): as soon as any line matches the binary regex the parser
returns with `isBinary = true`; the hunk still under construction is dropped
(with a single preceding hunk-shaped section the result has zero hunks), but
hunks already flushed by a later hunk header are kept (with two preceding
sections, one hunk remains). -/
theorem claim_C3_binary_amended :
    (∀ s : List Nat, (splitLines s).any isBinaryLine = true →
      (ParseUnifiedDiff s).IsBinary = true) ∧
    ((ParseUnifiedDiff binAfterOneHunk).IsBinary = true ∧
      (ParseUnifiedDiff binAfterOneHunk).Hunks = []) ∧
    ((ParseUnifiedDiff binAfterTwoHunks).IsBinary = true ∧
      (ParseUnifiedDiff binAfterTwoHunks).Hunks.length = 1) := by
  refine ⟨?_, ?_, ?_⟩
  · intro s h
    match hs : s with
    | [] => simp [splitLines] at h
    | b :: r =>
      simp only [ParseUnifiedDiff]
      rw [if_neg (by simp)]
      exact parseLoop_isBinary _ _ h
  · constructor
    · simp [ParseUnifiedDiff, binAfterOneHunk, splitLines, parseLoop, breakLine, dropCR,
        isBinaryLine, strBytes, parseFileHeader, parseHunkHeader, parseDiffLine,
        fileCapture, timestampOrEnd, matchDate, flushHunk, encodeValidUtf8, digitsVal,
        isDigitByte, isSpaceByte]
      decide
    · simp [ParseUnifiedDiff, binAfterOneHunk, splitLines, parseLoop, breakLine, dropCR,
        isBinaryLine, strBytes, parseFileHeader, parseHunkHeader, parseDiffLine,
        fileCapture, timestampOrEnd, matchDate, flushHunk, encodeValidUtf8, digitsVal,
        isDigitByte, isSpaceByte]
      decide
  · constructor
    · simp [ParseUnifiedDiff, binAfterTwoHunks, splitLines, parseLoop, breakLine, dropCR,
        isBinaryLine, strBytes, parseFileHeader, parseHunkHeader, parseDiffLine,
        fileCapture, timestampOrEnd, matchDate, flushHunk, encodeValidUtf8, digitsVal,
        isDigitByte, isSpaceByte]
      decide
    · simp [ParseUnifiedDiff, binAfterTwoHunks, splitLines, parseLoop, breakLine, dropCR,
        isBinaryLine, strBytes, parseFileHeader, parseHunkHeader, parseDiffLine,
        fileCapture, timestampOrEnd, matchDate, flushHunk, encodeValidUtf8, digitsVal,
        isDigitByte, isSpaceByte]
      decide

/-- Witness for the amended C3 at the single-hunk binary input. -/
theorem claim_C3_witness :
    (splitLines binAfterOneHunk).any isBinaryLine = true ∧
    (ParseUnifiedDiff binAfterOneHunk).IsBinary = true := by
  constructor
  · simp [binAfterOneHunk, splitLines, breakLine, dropCR, isBinaryLine, strBytes,
      encodeValidUtf8]
    decide
  · apply claim_C3_binary_amended.1 binAfterOneHunk
    simp [binAfterOneHunk, splitLines, breakLine, dropCR, isBinaryLine, strBytes,
      encodeValidUtf8]
    decide

/-- C9: the parser's leniency.  (i) `parseDiffLine` turns any line that is
empty or starts with a byte other than `+`, `-`, ` ` into a Context line
carrying the whole text; (ii) a hunk header with missing counts is still
recognized; (iii) a line outside any hunk (after the file headers) that is
not a hunk header is skipped without aborting; the embedded parser is a total
function into `DiffResult` — the Go error return is `scanner.Err()`, which
concerns reading the source, never diff syntax. -/
theorem claim_C9_lenient_parsing :
    (∀ (line : List Nat) (o n : Nat),
      line.head? ≠ some 43 → line.head? ≠ some 45 → line.head? ≠ some 32 →
      (parseDiffLine line o n).1.Kind = LineContext ∧
      (parseDiffLine line o n).1.Content = line) ∧
    (parseHunkHeader (strBytes "@@ -7 +9 @@") = some (7, 9)) ∧
    (∀ (line : List Nat) (rest : List (List Nat)) (st : ParseState),
      st.inFileHeader = false → st.currentHunk = none →
      isBinaryLine line = false → parseHunkHeader line = none →
      parseLoop (line :: rest) st = parseLoop rest st) := by
  refine ⟨?_, by decide, ?_⟩
  · intro line o n h43 h45 h32
    match line with
    | [] => simp [parseDiffLine]
    | c :: r =>
      simp only [List.head?, ne_eq, Option.some.injEq] at h43 h45 h32
      simp [parseDiffLine, h43, h45, h32]
  · intro line rest st hifh hch hbin hhh
    simp only [parseLoop, hbin, Bool.false_eq_true, if_false, hifh, hhh, hch]
    split <;> rfl

/-- Witness for C9 at a line starting with an unrecognized character. -/
theorem claim_C9_witness :
    (parseDiffLine (strBytes "*x") 1 2).1.Kind = LineContext ∧
    (parseDiffLine (strBytes "*x") 1 2).1.Content = strBytes "*x" :=
  claim_C9_lenient_parsing.1 (strBytes "*x") 1 2 (by decide) (by decide) (by decide)

/-- Length of the longest common prefix. -/
def commonPrefixLen : List Nat → List Nat → Nat
  | a :: as, b :: bs => if a = b then commonPrefixLen as bs + 1 else 0
  | _, _ => 0

/-- Modelled from the spec: the external character-diff primitive —
go-diff's `dmp.DiffMain` followed by `dmp.DiffCleanupSemantic`, whose sources
are not part of this repository.  Per the spec it returns an ordered
operation sequence whose equal+delete texts concatenate to the old string and
equal+insert texts to the new one, with the semantic cleanup merging adjacent
small edits into fewer, longer spans: common prefix and suffix are kept as
`equal` runs and each differing middle becomes one `delete`/`insert` pair. -/
def dmpSpec (a b : List Nat) : List DmpDiff :=
  let p := commonPrefixLen a b
  let a1 := a.drop p
  let b1 := b.drop p
  let s := commonPrefixLen a1.reverse b1.reverse
  (if p ≠ 0 then [⟨DmpOp.DiffEqual, a.take p⟩] else []) ++
  (if a1.length - s ≠ 0 then [⟨DmpOp.DiffDelete, a1.take (a1.length - s)⟩] else []) ++
  (if b1.length - s ≠ 0 then [⟨DmpOp.DiffInsert, b1.take (b1.length - s)⟩] else []) ++
  (if s ≠ 0 then [⟨DmpOp.DiffEqual, a1.drop (a1.length - s)⟩] else [])

/-- The Removed/Added pair of the spec's example. -/
def hunkHello : Hunk :=
  { Header := strBytes "@@ -1 +1 @@",
    Lines := [{ OldLineNo := 1, NewLineNo := 0, Kind := LineRemoved,
                Content := strBytes "hello world", Segments := [] },
              { OldLineNo := 0, NewLineNo := 1, Kind := LineAdded,
                Content := strBytes "hello there", Segments := [] }] }

/-- C6: on old `"hello world"` / new `"hello there"`, the Removed line's
segments are exactly one segment spanning bytes [6,11) — the byte range of
`"world"` — and the Added line's exactly one segment spanning [6,11) — the
byte range of `"there"`; nothing covers the bytes [0,6) of the common
`"hello "`. -/
theorem claim_C6_hello_world_there :
    ((HighlightIntralineChanges dmpSpec hunkHello).Lines.map fun l => l.Segments) =
      [[⟨6, 11, LineRemoved, strBytes "world"⟩], [⟨6, 11, LineAdded, strBytes "there"⟩]] ∧
    (strBytes "hello world").take 6 = strBytes "hello " ∧
    (strBytes "hello world").drop 6 = strBytes "world" ∧
    (strBytes "hello there").drop 6 = strBytes "there" := by
  refine ⟨?_, by decide, by decide, by decide⟩
  simp [HighlightIntralineChanges, hilLines, buildSegs, dmpSpec, commonPrefixLen,
    hunkHello, strBytes, encodeValidUtf8]

/-- Concatenation of the equal+delete texts of an edit script (what must
reconstruct the old string, per the external primitive's contract). -/
def oldText : List DmpDiff → List Nat
  | [] => []
  | d :: ds =>
    (match d.Op with | DmpOp.DiffInsert => [] | _ => d.Text) ++ oldText ds

/-- Concatenation of the equal+insert texts of an edit script (what must
reconstruct the new string). -/
def newText : List DmpDiff → List Nat
  | [] => []
  | d :: ds =>
    (match d.Op with | DmpOp.DiffDelete => [] | _ => d.Text) ++ newText ds

theorem buildSegs_inv (ds : List DmpDiff) :
    ∀ op np : Nat,
    (∀ s ∈ (buildSegs ds op np).1,
      op ≤ s.Start ∧ s.Start ≤ s.End ∧ s.End ≤ op + (oldText ds).length) ∧
    List.Pairwise (fun s t => s.End ≤ t.Start) (buildSegs ds op np).1 ∧
    (∀ s ∈ (buildSegs ds op np).2,
      np ≤ s.Start ∧ s.Start ≤ s.End ∧ s.End ≤ np + (newText ds).length) ∧
    List.Pairwise (fun s t => s.End ≤ t.Start) (buildSegs ds op np).2 := by
  induction ds with
  | nil => intro op np; simp [buildSegs]
  | cons d ds ih =>
    intro op np
    match hop : d.Op with
    | DmpOp.DiffDelete =>
      obtain ⟨ih1, ih2, ih3, ih4⟩ := ih (op + d.Text.length) np
      simp only [buildSegs, hop, oldText, newText, List.nil_append]
      refine ⟨?_, ?_, ?_, ?_⟩
      · intro s hs
        simp only [List.mem_cons] at hs
        rcases hs with hs | hs
        · subst hs
          dsimp only
          simp only [List.length_append]
          omega
        · have := ih1 s hs
          simp only [List.length_append]
          omega
      · refine List.pairwise_cons.2 ⟨?_, ih2⟩
        intro s hs
        exact (ih1 s hs).1
      · intro s hs
        have := ih3 s hs
        omega
      · exact ih4
    | DmpOp.DiffInsert =>
      obtain ⟨ih1, ih2, ih3, ih4⟩ := ih op (np + d.Text.length)
      simp only [buildSegs, hop, oldText, newText, List.nil_append]
      refine ⟨?_, ?_, ?_, ?_⟩
      · intro s hs
        have := ih1 s hs
        omega
      · exact ih2
      · intro s hs
        simp only [List.mem_cons] at hs
        rcases hs with hs | hs
        · subst hs
          dsimp only
          simp only [List.length_append]
          omega
        · have := ih3 s hs
          simp only [List.length_append]
          omega
      · refine List.pairwise_cons.2 ⟨?_, ih4⟩
        intro s hs
        exact (ih3 s hs).1
    | DmpOp.DiffEqual =>
      obtain ⟨ih1, ih2, ih3, ih4⟩ := ih (op + d.Text.length) (np + d.Text.length)
      simp only [buildSegs, hop, oldText, newText, List.nil_append]
      refine ⟨?_, ih2, ?_, ih4⟩
      · intro s hs
        have := ih1 s hs
        simp only [List.length_append]
        omega
      · intro s hs
        have := ih3 s hs
        simp only [List.length_append]
        omega

theorem hilLines_inv (dmp : List Nat → List Nat → List DmpDiff)
    (hc : ∀ a b, oldText (dmp a b) = a ∧ newText (dmp a b) = b) :
    ∀ lines : List DiffLine, (∀ l ∈ lines, l.Segments = []) →
    ∀ l ∈ hilLines dmp lines,
      (∀ s ∈ l.Segments, s.Start ≤ s.End ∧ s.End ≤ l.Content.length) ∧
      List.Pairwise (fun s t => s.End ≤ t.Start) l.Segments := by
  intro lines
  induction lines using hilLines.induct dmp with
  | case1 =>
    intro _ l hl
    simp [hilLines] at hl
  | case2 a =>
    intro hinit l hl
    simp only [hilLines, List.mem_singleton] at hl
    subst hl
    rw [hinit l (by simp)]
    simp
  | case3 a b rest hk ih =>
    intro hinit l hl
    rw [hilLines] at hl
    rw [if_pos hk] at hl
    simp only [List.mem_cons] at hl
    obtain ⟨ho1, ho2, hn1, hn2⟩ := buildSegs_inv (dmp a.Content b.Content) 0 0
    rcases hl with hl | hl | hl
    · subst hl
      simp only []
      constructor
      · intro s hs
        have := ho1 s hs
        have hre := (hc a.Content b.Content).1
        rw [hre] at this
        omega
      · exact ho2
    · subst hl
      simp only []
      constructor
      · intro s hs
        have := hn1 s hs
        have hre := (hc a.Content b.Content).2
        rw [hre] at this
        omega
      · exact hn2
    · exact ih (fun l2 hl2 => hinit l2 (by simp [hl2])) l hl
  | case4 a b rest hk ih =>
    intro hinit l hl
    rw [hilLines] at hl
    rw [if_neg hk] at hl
    simp only [List.mem_cons] at hl
    rcases hl with hl | hl
    · subst hl
      rw [hinit l (by simp)]
      simp
    · exact ih (fun l2 hl2 => hinit l2 (by simp [hl2])) l hl

/-- C7: assuming the external primitive's reconstruction contract, after
`HighlightIntralineChanges` every segment on every line satisfies
`0 ≤ start ≤ end ≤ len(content)`, and same-kind segments on one line are
non-overlapping and offset-increasing. -/
theorem claim_C7_segment_invariants (dmp : List Nat → List Nat → List DmpDiff)
    (hc : ∀ a b, oldText (dmp a b) = a ∧ newText (dmp a b) = b)
    (h : Hunk) (hinit : ∀ l ∈ h.Lines, l.Segments = []) :
    ∀ l ∈ (HighlightIntralineChanges dmp h).Lines,
      (∀ s ∈ l.Segments, 0 ≤ s.Start ∧ s.Start ≤ s.End ∧ s.End ≤ l.Content.length) ∧
      List.Pairwise (fun s t => s.Ty = t.Ty → s.End ≤ t.Start) l.Segments := by
  intro l hl
  have := hilLines_inv dmp hc h.Lines hinit l hl
  refine ⟨?_, ?_⟩
  · intro s hs
    have h2 := this.1 s hs
    omega
  · refine List.Pairwise.imp ?_ this.2
    intro s t hst
    exact fun _ => hst

/-- The simplest function satisfying the reconstruction contract: one delete
of the whole old string, one insert of the whole new string. -/
def dmpTriv (a b : List Nat) : List DmpDiff :=
  [⟨DmpOp.DiffDelete, a⟩, ⟨DmpOp.DiffInsert, b⟩]

/-- Witness for C7: the theorem applied at a concrete hunk and a concrete
contract-satisfying primitive, read off at the Removed line's one segment
(which spans [0,11) of `"hello world"`). -/
theorem claim_C7_witness :
    0 ≤ (0 : Nat) ∧ (0 : Nat) ≤ 11 ∧ (11 : Nat) ≤ (strBytes "hello world").length := by
  have hcontract : ∀ a b, oldText (dmpTriv a b) = a ∧ newText (dmpTriv a b) = b := by
    intro a b
    constructor
    · simp [oldText, newText, dmpTriv]
    · simp [oldText, newText, dmpTriv]
  have h := claim_C7_segment_invariants dmpTriv hcontract hunkHello (by decide)
  have heval : (HighlightIntralineChanges dmpTriv hunkHello).Lines =
      [{ OldLineNo := 1, NewLineNo := 0, Kind := LineRemoved,
         Content := strBytes "hello world",
         Segments := [⟨0, 11, LineRemoved, strBytes "hello world"⟩] },
       { OldLineNo := 0, NewLineNo := 1, Kind := LineAdded,
         Content := strBytes "hello there",
         Segments := [⟨0, 11, LineAdded, strBytes "hello there"⟩] }] := by
    simp [HighlightIntralineChanges, hilLines, buildSegs, dmpTriv, hunkHello,
      strBytes, encodeValidUtf8]
  rw [heval] at h
  have h2 := h (⟨1, 0, LineRemoved, strBytes "hello world",
      [⟨0, 11, LineRemoved, strBytes "hello world"⟩]⟩ : DiffLine) (by simp)
  exact h2.1 ⟨0, 11, LineRemoved, strBytes "hello world"⟩ (by simp)

/-! ### Development for C1: stripping the compositor's output

The key facts: an ANSI match is self-delimiting (appending anything after a
full match cannot change it), every inserted styling sequence is itself a
full match, and on valid UTF-8 the decode/re-encode of each visible code
point reproduces its bytes. -/

theorem matchCsi_prefix {r : List Nat} {k n : Nat} (h : matchCsi r k = some n) :
    ∀ t, matchCsi (r.take (n - k) ++ t) k = some n := by
  induction r generalizing k with
  | nil => simp [matchCsi] at h
  | cons c rest ih =>
    intro t
    simp only [matchCsi] at h
    split_ifs at h with h1 h2
    · have hge := matchCsi_ge h
      have hnk : n - k = (n - (k + 1)) + 1 := by omega
      rw [hnk]
      simp only [List.take_succ_cons, List.cons_append, matchCsi, h1, if_true]
      exact ih h t
    · simp only [Option.some.injEq] at h
      subst h
      simp only [Nat.add_sub_cancel_left, List.take_succ_cons, List.take_zero,
        List.cons_append, List.nil_append, matchCsi, h1, h2]
      simp [h1, h2]

theorem matchCsi_bytes {r : List Nat} {k n : Nat} (h : matchCsi r k = some n) :
    ∀ x ∈ r.take (n - k), x < 0x80 := by
  induction r generalizing k with
  | nil => simp [matchCsi] at h
  | cons c rest ih =>
    intro x hx
    simp only [matchCsi] at h
    split_ifs at h with h1 h2
    · have hge := matchCsi_ge h
      have hnk : n - k = (n - (k + 1)) + 1 := by omega
      rw [hnk] at hx
      simp only [List.take_succ_cons, List.mem_cons] at hx
      rcases hx with hx | hx
      · subst hx
        simp only [isParamByte, Bool.or_eq_true, decide_eq_true_eq,
          Bool.and_eq_true] at h1
        omega
      · exact ih h x hx
    · simp only [Option.some.injEq] at h
      subst h
      simp only [Nat.add_sub_cancel_left, List.take_succ_cons, List.take_zero,
        List.mem_singleton] at hx
      subst hx
      simp only [isFinalByte, Bool.and_eq_true, decide_eq_true_eq] at h2
      omega

theorem matchAnsi_prefix {l : List Nat} {n : Nat} (h : matchAnsi l = some n) :
    ∀ t, matchAnsi (l.take n ++ t) = some n := by
  match l with
  | [] => simp [matchAnsi] at h
  | [b] => simp [matchAnsi] at h
  | b :: c :: rest =>
    intro t
    simp only [matchAnsi] at h
    split_ifs at h with h0 h1 h2
    · simp only [Option.some.injEq] at h
      subst h
      simp [matchAnsi, h0, h1]
    · have hge := matchCsi_ge h
      have hn : n = (n - 2) + 2 := by omega
      rw [hn]
      simp only [List.take_succ_cons, List.cons_append, matchAnsi]
      rw [if_pos h0, if_neg (by simp [h1]), if_pos h2]
      have := matchCsi_prefix h t
      simp only [show n - 2 = n - 2 by rfl] at this
      rw [← hn]
      exact this

theorem matchAnsi_bytes {l : List Nat} {n : Nat} (h : matchAnsi l = some n) :
    ∀ x ∈ l.take n, x < 0x80 := by
  match l with
  | [] => simp [matchAnsi] at h
  | [b] => simp [matchAnsi] at h
  | b :: c :: rest =>
    intro x hx
    simp only [matchAnsi] at h
    split_ifs at h with h0 h1 h2
    · simp only [Option.some.injEq] at h
      subst h
      simp only [List.take_succ_cons, List.take_zero, List.mem_cons,
        List.mem_singleton] at hx
      simp only [twoByteClass, Bool.or_eq_true, Bool.and_eq_true,
        decide_eq_true_eq] at h1
      rcases hx with hx | hx | hx
      · subst hx; subst h0; omega
      · subst hx; omega
      · simp at hx
    · have hge := matchCsi_ge h
      have hn : n = (n - 2) + 2 := by omega
      rw [hn] at hx
      simp only [List.take_succ_cons, List.mem_cons] at hx
      rcases hx with hx | hx | hx
      · subst hx; subst h0; omega
      · subst hx; subst h2; omega
      · have := matchCsi_bytes h
        simp only [show n - 2 = n - 2 by rfl] at this
        exact this x hx

theorem matchAnsi_take_full {l : List Nat} {n : Nat} (h : matchAnsi l = some n) :
    matchAnsi (l.take n) = some (l.take n).length := by
  have hge := matchAnsi_ge_two h
  have hlen : (l.take n).length = n := by
    simp [List.length_take]
    omega
  rw [hlen]
  have := matchAnsi_prefix h []
  simpa using this

theorem matchAnsi_head {l : List Nat} {n : Nat} (h : matchAnsi l = some n) :
    l.head? = some 0x1B := by
  match l with
  | [] => simp [matchAnsi] at h
  | [b] => simp [matchAnsi] at h
  | b :: c :: rest =>
    simp only [matchAnsi] at h
    split_ifs at h with h0
    · subst h0; rfl
    · subst h0; rfl

theorem matchAnsi_ne_esc {b : Nat} (t : List Nat) (hb : b ≠ 0x1B) :
    matchAnsi (b :: t) = none := by
  match t with
  | [] => simp [matchAnsi]
  | c :: rest => simp [matchAnsi, hb]

theorem stripAnsi_some {b : Nat} {rest : List Nat} {n : Nat}
    (h : matchAnsi (b :: rest) = some n) :
    StripANSI (b :: rest) = StripANSI ((b :: rest).drop n) := by
  rw [StripANSI]
  split
  next n2 heq =>
    rw [heq] at h
    simp only [Option.some.injEq] at h
    rw [h]
  next heq =>
    rw [heq] at h
    simp at h

theorem stripAnsi_none {b : Nat} {rest : List Nat}
    (h : matchAnsi (b :: rest) = none) :
    StripANSI (b :: rest) = b :: StripANSI rest := by
  rw [StripANSI]
  split
  next n2 heq =>
    rw [heq] at h
    simp at h
  next heq => rfl

theorem stripAnsi_cancel {a : List Nat} (h : matchAnsi a = some a.length)
    (t : List Nat) : StripANSI (a ++ t) = StripANSI t := by
  match a with
  | [] => simp [matchAnsi] at h
  | b :: rest =>
    have hm : matchAnsi (b :: (rest ++ t)) = some (b :: rest).length := by
      have := matchAnsi_prefix h t
      simpa using this
    show StripANSI (b :: (rest ++ t)) = StripANSI t
    rw [stripAnsi_some hm]
    have hd : (b :: (rest ++ t)).drop (b :: rest).length = t := by
      simp only [List.length_cons, List.drop_succ_cons]
      exact List.drop_left rest t
    rw [hd]

theorem stripAnsi_no_esc {bs : List Nat} (hb : ∀ x ∈ bs, x ≠ 0x1B) :
    ∀ t, StripANSI (bs ++ t) = bs ++ StripANSI t := by
  induction bs with
  | nil => simp
  | cons b rest ih =>
    intro t
    have hbne : b ≠ 0x1B := hb b (by simp)
    simp only [List.cons_append]
    rw [stripAnsi_none (matchAnsi_ne_esc _ hbne)]
    rw [ih (fun x hx => hb x (by simp [hx])) t]

theorem utf8_clean_roundtrip {b0 : Nat} {rest : List Nat} {r s : Nat}
    (h : utf8DecodeClean (b0 :: rest) = some (r, s)) :
    writeRune r = (b0 :: rest).take s ∧
    (∀ x ∈ (b0 :: rest).take s, x = b0 ∨ 0x80 ≤ x) := by
  rcases rest with _ | ⟨b1, rest⟩
  · simp only [utf8DecodeClean] at h
    split_ifs at h with h1
    simp only [Option.some.injEq, Prod.mk.injEq] at h
    obtain ⟨hr, hs⟩ := h
    subst hr
    subst hs
    refine ⟨?_, ?_⟩
    · rw [writeRune, if_neg (by omega), encodeValidUtf8, if_pos (by omega)]
      rfl
    · intro x hx
      simp at hx
      exact Or.inl hx
  rcases rest with _ | ⟨b2, rest⟩
  · simp only [utf8DecodeClean] at h
    split_ifs at h with h1 h2 h3
    case pos =>
        simp only [Option.some.injEq, Prod.mk.injEq] at h
        obtain ⟨hr, hs⟩ := h
        subst hr
        subst hs
        refine ⟨?_, ?_⟩
        · rw [writeRune, if_neg (by omega), encodeValidUtf8, if_pos (by omega)]
          rfl
        · intro x hx
          simp at hx
          exact Or.inl hx
    case pos =>
        simp only [Option.some.injEq, Prod.mk.injEq] at h
        obtain ⟨hr, hs⟩ := h
        subst hr
        subst hs
        refine ⟨?_, ?_⟩
        · rw [writeRune, if_neg (by omega), encodeValidUtf8, if_neg (by omega),
            if_pos (by omega)]
          simp only [List.take_succ_cons, List.take_zero]
          simp only [List.cons.injEq, and_true]
          omega
        · intro x hx
          simp at hx
          rcases hx with hx | hx
          · exact Or.inl hx
          · exact Or.inr (by omega)
  rcases rest with _ | ⟨b3, rest⟩
  · simp only [utf8DecodeClean] at h
    split_ifs at h with h1 h2 h3 h4 h5
    case pos =>
        simp only [Option.some.injEq, Prod.mk.injEq] at h
        obtain ⟨hr, hs⟩ := h
        subst hr
        subst hs
        refine ⟨?_, ?_⟩
        · rw [writeRune, if_neg (by omega), encodeValidUtf8, if_pos (by omega)]
          rfl
        · intro x hx
          simp at hx
          exact Or.inl hx
    case pos =>
        simp only [Option.some.injEq, Prod.mk.injEq] at h
        obtain ⟨hr, hs⟩ := h
        subst hr
        subst hs
        refine ⟨?_, ?_⟩
        · rw [writeRune, if_neg (by omega), encodeValidUtf8, if_neg (by omega),
            if_pos (by omega)]
          simp only [List.take_succ_cons, List.take_zero]
          simp only [List.cons.injEq, and_true]
          omega
        · intro x hx
          simp at hx
          rcases hx with hx | hx
          · exact Or.inl hx
          · exact Or.inr (by omega)
    case pos =>
        obtain ⟨hcls, hc2⟩ := h5
        simp only [Option.some.injEq, Prod.mk.injEq] at h
        obtain ⟨hr, hs⟩ := h
        subst hr
        subst hs
        have hb1 : 0x80 ≤ b1 ∧ b1 ≤ 0xBF ∧
            ((b0 - 0xE0) * 4096 + (b1 - 0x80) * 64 + (b2 - 0x80) < 0xD800 ∨
             0xE000 ≤ (b0 - 0xE0) * 4096 + (b1 - 0x80) * 64 + (b2 - 0x80)) ∧
            0x800 ≤ (b0 - 0xE0) * 4096 + (b1 - 0x80) * 64 + (b2 - 0x80) ∧
            (b0 - 0xE0) * 4096 + (b1 - 0x80) * 64 + (b2 - 0x80) < 0x10000 := by
          rcases hcls with ⟨he, h1a, h1b⟩ | ⟨he, h1a, h1b⟩ | ⟨hne1, hne2, h1a, h1b⟩
          · subst he
            refine ⟨by omega, by omega, by omega, by omega, by omega⟩
          · subst he
            refine ⟨by omega, by omega, by omega, by omega, by omega⟩
          · refine ⟨by omega, by omega, by omega, by omega, by omega⟩
        obtain ⟨hq1, hq2, hq3, hq4, hq5⟩ := hb1
        have hnosur : ¬((0xD800 ≤ (b0 - 0xE0) * 4096 + (b1 - 0x80) * 64 + (b2 - 0x80) ∧
            (b0 - 0xE0) * 4096 + (b1 - 0x80) * 64 + (b2 - 0x80) < 0xE000) ∨
            0x10FFFF < (b0 - 0xE0) * 4096 + (b1 - 0x80) * 64 + (b2 - 0x80)) := by
          rcases hq3 with hq3 | hq3
          · omega
          · omega
        refine ⟨?_, ?_⟩
        · rw [writeRune, if_neg hnosur, encodeValidUtf8, if_neg (by omega),
            if_neg (by omega), if_pos (by omega)]
          simp only [List.take_succ_cons, List.take_zero]
          simp only [List.cons.injEq, and_true]
          omega
        · intro x hx
          simp at hx
          rcases hx with hx | hx | hx
          · exact Or.inl hx
          · exact Or.inr (by omega)
          · exact Or.inr (by omega)
  · simp only [utf8DecodeClean] at h
    split_ifs at h with h1 h2 h3 h4 h5 h6 h7
    case pos =>
        simp only [Option.some.injEq, Prod.mk.injEq] at h
        obtain ⟨hr, hs⟩ := h
        subst hr
        subst hs
        refine ⟨?_, ?_⟩
        · rw [writeRune, if_neg (by omega), encodeValidUtf8, if_pos (by omega)]
          rfl
        · intro x hx
          simp at hx
          exact Or.inl hx
    case pos =>
        simp only [Option.some.injEq, Prod.mk.injEq] at h
        obtain ⟨hr, hs⟩ := h
        subst hr
        subst hs
        refine ⟨?_, ?_⟩
        · rw [writeRune, if_neg (by omega), encodeValidUtf8, if_neg (by omega),
            if_pos (by omega)]
          simp only [List.take_succ_cons, List.take_zero]
          simp only [List.cons.injEq, and_true]
          omega
        · intro x hx
          simp at hx
          rcases hx with hx | hx
          · exact Or.inl hx
          · exact Or.inr (by omega)
    case pos =>
        obtain ⟨hcls, hc2⟩ := h5
        simp only [Option.some.injEq, Prod.mk.injEq] at h
        obtain ⟨hr, hs⟩ := h
        subst hr
        subst hs
        have hb1 : 0x80 ≤ b1 ∧ b1 ≤ 0xBF ∧
            ((b0 - 0xE0) * 4096 + (b1 - 0x80) * 64 + (b2 - 0x80) < 0xD800 ∨
             0xE000 ≤ (b0 - 0xE0) * 4096 + (b1 - 0x80) * 64 + (b2 - 0x80)) ∧
            0x800 ≤ (b0 - 0xE0) * 4096 + (b1 - 0x80) * 64 + (b2 - 0x80) ∧
            (b0 - 0xE0) * 4096 + (b1 - 0x80) * 64 + (b2 - 0x80) < 0x10000 := by
          rcases hcls with ⟨he, h1a, h1b⟩ | ⟨he, h1a, h1b⟩ | ⟨hne1, hne2, h1a, h1b⟩
          · subst he
            refine ⟨by omega, by omega, by omega, by omega, by omega⟩
          · subst he
            refine ⟨by omega, by omega, by omega, by omega, by omega⟩
          · refine ⟨by omega, by omega, by omega, by omega, by omega⟩
        obtain ⟨hq1, hq2, hq3, hq4, hq5⟩ := hb1
        have hnosur : ¬((0xD800 ≤ (b0 - 0xE0) * 4096 + (b1 - 0x80) * 64 + (b2 - 0x80) ∧
            (b0 - 0xE0) * 4096 + (b1 - 0x80) * 64 + (b2 - 0x80) < 0xE000) ∨
            0x10FFFF < (b0 - 0xE0) * 4096 + (b1 - 0x80) * 64 + (b2 - 0x80)) := by
          rcases hq3 with hq3 | hq3
          · omega
          · omega
        refine ⟨?_, ?_⟩
        · rw [writeRune, if_neg hnosur, encodeValidUtf8, if_neg (by omega),
            if_neg (by omega), if_pos (by omega)]
          simp only [List.take_succ_cons, List.take_zero]
          simp only [List.cons.injEq, and_true]
          omega
        · intro x hx
          simp at hx
          rcases hx with hx | hx | hx
          · exact Or.inl hx
          · exact Or.inr (by omega)
          · exact Or.inr (by omega)
    case pos =>
        obtain ⟨hcls, hc2, hc3⟩ := h7
        simp only [Option.some.injEq, Prod.mk.injEq] at h
        obtain ⟨hr, hs⟩ := h
        subst hr
        subst hs
        have hb1 : 0x80 ≤ b1 ∧ b1 ≤ 0xBF ∧
            0x10000 ≤ (b0 - 0xF0) * 262144 + (b1 - 0x80) * 4096 + (b2 - 0x80) * 64 + (b3 - 0x80) ∧
            (b0 - 0xF0) * 262144 + (b1 - 0x80) * 4096 + (b2 - 0x80) * 64 + (b3 - 0x80) ≤ 0x10FFFF := by
          rcases hcls with ⟨he, h1a, h1b⟩ | ⟨he, h1a, h1b⟩ | ⟨hne1, hne2, h1a, h1b⟩
          · subst he
            refine ⟨by omega, by omega, by omega, by omega⟩
          · subst he
            refine ⟨by omega, by omega, by omega, by omega⟩
          · refine ⟨by omega, by omega, by omega, by omega⟩
        obtain ⟨hq1, hq2, hq3, hq4⟩ := hb1
        refine ⟨?_, ?_⟩
        · rw [writeRune, if_neg (by omega), encodeValidUtf8, if_neg (by omega),
            if_neg (by omega), if_neg (by omega)]
          simp only [List.take_succ_cons, List.take_zero]
          simp only [List.cons.injEq, and_true]
          omega
        · intro x hx
          simp at hx
          rcases hx with hx | hx | hx | hx
          · exact Or.inl hx
          · exact Or.inr (by omega)
          · exact Or.inr (by omega)
          · exact Or.inr (by omega)

theorem validUtf8_some {b : Nat} {rest : List Nat} {r s : Nat}
    (h : utf8DecodeClean (b :: rest) = some (r, s)) :
    validUtf8 (b :: rest) = validUtf8 ((b :: rest).drop s) := by
  rw [validUtf8]
  split
  next r2 s2 heq =>
    rw [heq] at h
    simp only [Option.some.injEq, Prod.mk.injEq] at h
    rw [h.2]
  next heq =>
    rw [heq] at h
    simp at h

theorem validUtf8_decode {b : Nat} {rest : List Nat}
    (h : validUtf8 (b :: rest) = true) :
    ∃ r s, utf8DecodeClean (b :: rest) = some (r, s) := by
  rw [validUtf8] at h
  split at h
  next r2 s2 heq => exact ⟨r2, s2, heq⟩
  next heq => simp at h

theorem validUtf8_drop_ascii :
    ∀ (n : Nat) (l : List Nat), (∀ x ∈ l.take n, x < 0x80) →
    validUtf8 l = true → validUtf8 (l.drop n) = true := by
  intro n
  induction n with
  | zero =>
    intro l _ h
    simpa using h
  | succ k ih =>
    intro l hx h
    match l with
    | [] => simpa using h
    | b :: rest =>
      have hb : b < 0x80 := hx b (by simp)
      have hdec : utf8DecodeClean (b :: rest) = some (b, 1) := by
        simp [utf8DecodeClean, hb]
      rw [validUtf8_some hdec] at h
      simp only [List.drop_succ_cons]
      refine ih rest ?_ (by simpa using h)
      intro x hxm
      exact hx x (by simp [hxm])

/-- Invariant of the `ansiSequences` table: every stored value is itself one
full ANSI match. -/
def goodMap (m : List (Nat × List Nat)) : Prop :=
  ∀ p ∈ m, matchAnsi p.2 = some p.2.length

theorem escReset_full : matchAnsi escReset = some escReset.length := by decide

theorem mapLookup_good {m : List (Nat × List Nat)} {k : Nat} {v : List Nat}
    (hm : goodMap m) (h : mapLookup m k = some v) :
    matchAnsi v = some v.length := by
  simp only [mapLookup] at h
  rcases hf : List.find? (fun p => p.1 == k) m with _ | p
  · rw [hf] at h
    exact absurd h (by simp)
  · rw [hf] at h
    simp only [Option.map_some', Option.some.injEq] at h
    subst h
    exact hm p (List.mem_of_find?_eq_some hf)

theorem goodMap_insert {m : List (Nat × List Nat)} {k : Nat} {v : List Nat}
    (hm : goodMap m) (hv : matchAnsi v = some v.length) :
    goodMap (mapInsert m k v) := by
  intro p hp
  simp only [mapInsert, List.mem_cons] at hp
  rcases hp with hp | hp
  · subst hp
    exact hv
  · exact hm p hp

theorem pass1_matched {b : Nat} {rest : List Nat} {n : Nat}
    (vi : Nat) (lastSeq : List Nat) (m : List (Nat × List Nat))
    (h : matchAnsi (b :: rest) = some n) :
    pass1 (b :: rest) vi lastSeq m =
      pass1 ((b :: rest).drop n) vi ((b :: rest).take n)
        (mapInsert m vi ((b :: rest).take n)) := by
  rw [pass1]
  split
  next n2 heq =>
    rw [heq] at h
    simp only [Option.some.injEq] at h
    rw [h]
  next heq =>
    rw [heq] at h
    simp at h

theorem pass1_visible {b : Nat} {rest : List Nat}
    (vi : Nat) (lastSeq : List Nat) (m : List (Nat × List Nat))
    (h : matchAnsi (b :: rest) = none) :
    pass1 (b :: rest) vi lastSeq m =
      pass1 ((b :: rest).drop (utf8Decode (b :: rest)).2) (vi + 1) lastSeq
        (if (mapLookup m vi).isSome then m else mapInsert m vi lastSeq) := by
  rw [pass1]
  split
  next n2 heq =>
    rw [heq] at h
    simp at h
  next heq => rfl

theorem pass1_goodMap (l : List Nat) (vi : Nat) (lastSeq : List Nat)
    (m : List (Nat × List Nat)) :
    matchAnsi lastSeq = some lastSeq.length → goodMap m →
    goodMap (pass1 l vi lastSeq m) := by
  induction l, vi, lastSeq, m using pass1.induct with
  | case1 vi lastSeq m =>
    intro _ hm
    rw [pass1]
    exact hm
  | case2 b rest vi lastSeq m n hma ih =>
    intro hlast hm
    rw [pass1_matched vi lastSeq m hma]
    exact ih (matchAnsi_take_full hma) (goodMap_insert hm (matchAnsi_take_full hma))
  | case3 b rest vi lastSeq m hma ih =>
    intro hlast hm
    rw [pass1_visible vi lastSeq m hma]
    refine ih hlast ?_
    split_ifs with hlk
    · exact hm
    · exact goodMap_insert hm hlast

/-- A byte sequence that `StripANSI` deletes entirely, wherever prepended. -/
def stripNeutral (e : List Nat) : Prop :=
  ∀ t, StripANSI (e ++ t) = StripANSI t

theorem stripNeutral_nil : stripNeutral [] := by
  intro t
  simp

theorem stripNeutral_full {a : List Nat} (h : matchAnsi a = some a.length) :
    stripNeutral a :=
  fun t => stripAnsi_cancel h t

theorem stripNeutral_append {a b : List Nat} (ha : stripNeutral a)
    (hb : stripNeutral b) : stripNeutral (a ++ b) := by
  intro t
  rw [List.append_assoc, ha, hb]

theorem stripNeutral_getD {m : List (Nat × List Nat)} {pos : Nat}
    (hm : goodMap m) : stripNeutral ((mapLookup m pos).getD []) := by
  rcases hl : mapLookup m pos with _ | v
  · simpa using stripNeutral_nil
  · simpa using stripNeutral_full (mapLookup_good hm hl)

theorem segBoundary_neutral (st : LineType) (hs : List Nat)
    (m : List (Nat × List Nat)) (pos : Nat)
    (hhs : matchAnsi hs = some hs.length) (hm : goodMap m) :
    ∀ (segs : List Segment) (inSel : Bool),
    stripNeutral (segBoundary segs st hs m inSel pos).1 := by
  intro segs
  induction segs with
  | nil =>
    intro inSel
    simpa [segBoundary] using stripNeutral_nil
  | cons seg rest ih =>
    intro inSel
    by_cases hty : seg.Ty = st
    · simp only [segBoundary, if_pos hty]
      refine stripNeutral_append ?_ (ih _)
      split_ifs with h2 h1 h1
      · exact stripNeutral_append
          (stripNeutral_append (stripNeutral_full hhs) (stripNeutral_full escReset_full))
          (stripNeutral_getD hm)
      · exact stripNeutral_full hhs
      · exact stripNeutral_append
          (stripNeutral_append stripNeutral_nil (stripNeutral_full escReset_full))
          (stripNeutral_getD hm)
      · exact stripNeutral_nil
    · simp only [segBoundary, if_neg hty]
      exact ih inSel

/-- A byte sequence that is empty or starts with ESC (and therefore can
neither start nor continue a CSI match). -/
def headEsc (e : List Nat) : Prop :=
  e = [] ∨ e.head? = some 0x1B

theorem headEsc_append {a b : List Nat} (ha : headEsc a) (hb : headEsc b) :
    headEsc (a ++ b) := by
  rcases ha with ha | ha
  · subst ha
    simpa using hb
  · right
    match a, ha with
    | x :: xs, ha =>
      simp only [List.head?] at ha
      simpa using ha

theorem headEsc_full {a : List Nat} (h : matchAnsi a = some a.length) :
    headEsc a :=
  Or.inr (matchAnsi_head h)

theorem headEsc_getD {m : List (Nat × List Nat)} {pos : Nat} (hm : goodMap m) :
    headEsc ((mapLookup m pos).getD []) := by
  rcases hl : mapLookup m pos with _ | v
  · exact Or.inl rfl
  · simpa using headEsc_full (mapLookup_good hm hl)

theorem segBoundary_headEsc (st : LineType) (hs : List Nat)
    (m : List (Nat × List Nat)) (pos : Nat)
    (hhs : matchAnsi hs = some hs.length) (hm : goodMap m) :
    ∀ (segs : List Segment) (inSel : Bool),
    headEsc (segBoundary segs st hs m inSel pos).1 := by
  intro segs
  induction segs with
  | nil =>
    intro inSel
    exact Or.inl rfl
  | cons seg rest ih =>
    intro inSel
    by_cases hty : seg.Ty = st
    · simp only [segBoundary, if_pos hty]
      refine headEsc_append ?_ (ih _)
      split_ifs with h2 h1 h1
      · exact headEsc_append (headEsc_append (headEsc_full hhs) (headEsc_full escReset_full))
          (headEsc_getD hm)
      · exact headEsc_full hhs
      · exact headEsc_append (headEsc_append (Or.inl rfl) (headEsc_full escReset_full))
          (headEsc_getD hm)
      · exact Or.inl rfl
    · simp only [segBoundary, if_neg hty]
      exact ih inSel

theorem pass2_nil (segs : List Segment) (st : LineType) (hs : List Nat)
    (m : List (Nat × List Nat)) (inSel : Bool) (pos : Nat) :
    pass2 [] segs st hs m inSel pos = if inSel then escReset else [] := by
  rw [pass2]

theorem pass2_matched {b : Nat} {rest : List Nat} {n : Nat}
    (segs : List Segment) (st : LineType) (hs : List Nat)
    (m : List (Nat × List Nat)) (inSel : Bool) (pos : Nat)
    (h : matchAnsi (b :: rest) = some n) :
    pass2 (b :: rest) segs st hs m inSel pos =
      (b :: rest).take n ++ pass2 ((b :: rest).drop n) segs st hs m inSel pos := by
  rw [pass2]
  split
  next n2 heq =>
    rw [heq] at h
    simp only [Option.some.injEq] at h
    rw [h]
  next heq =>
    rw [heq] at h
    simp at h

theorem pass2_visible {b : Nat} {rest : List Nat}
    (segs : List Segment) (st : LineType) (hs : List Nat)
    (m : List (Nat × List Nat)) (inSel : Bool) (pos : Nat)
    (h : matchAnsi (b :: rest) = none) :
    pass2 (b :: rest) segs st hs m inSel pos =
      (segBoundary segs st hs m inSel pos).1 ++
        writeRune (utf8Decode (b :: rest)).1 ++
        pass2 ((b :: rest).drop (utf8Decode (b :: rest)).2) segs st hs m
          (segBoundary segs st hs m inSel pos).2 (pos + 1) := by
  rw [pass2]
  split
  next n2 heq =>
    rw [heq] at h
    simp at h
  next heq => rfl

theorem matchCsi_none_shift {r : List Nat} {k : Nat} (h : matchCsi r k = none) :
    ∀ j, matchCsi r j = none := by
  induction r generalizing k with
  | nil =>
    intro j
    simp [matchCsi]
  | cons c rest ih =>
    intro j
    by_cases h1 : isParamByte c
    · simp only [matchCsi, h1, if_true] at h ⊢
      exact ih h (j + 1)
    · by_cases h2 : isFinalByte c
      · simp only [matchCsi, h1, h2] at h
        simp at h
      · simp [matchCsi, h1, h2]

theorem pass2_csi_safe (segs : List Segment) (st : LineType) (hs : List Nat)
    (m : List (Nat × List Nat)) (hhs : matchAnsi hs = some hs.length)
    (hm : goodMap m) :
    ∀ (n : Nat) (l : List Nat), l.length ≤ n → ∀ (inSel : Bool) (pos k : Nat),
    validUtf8 l = true → matchCsi l k = none →
    matchCsi (pass2 l segs st hs m inSel pos) k = none := by
  intro n
  induction n with
  | zero =>
    intro l hl inSel pos k hvalid hcsi
    have hnil : l = [] := List.eq_nil_of_length_eq_zero (Nat.le_zero.mp hl)
    subst hnil
    rw [pass2_nil]
    split_ifs with hsel
    · simp [escReset, matchCsi, isParamByte, isFinalByte]
    · simp [matchCsi]
  | succ q ih =>
    intro l hl inSel pos k hvalid hcsi
    match l with
    | [] =>
      rw [pass2_nil]
      split_ifs with hsel
      · simp [escReset, matchCsi, isParamByte, isFinalByte]
      · simp [matchCsi]
    | b :: rest =>
      rcases hma : matchAnsi (b :: rest) with _ | n2
      · rw [pass2_visible segs st hs m inSel pos hma]
        obtain ⟨r, s, hdec⟩ := validUtf8_decode hvalid
        have hud : utf8Decode (b :: rest) = (r, s) := by
          simp [utf8Decode, hdec]
        have hround := (utf8_clean_roundtrip hdec).1
        have hsz := utf8DecodeClean_size_pos hdec
        have hvrest : validUtf8 ((b :: rest).drop s) = true := by
          rw [← validUtf8_some hdec]
          exact hvalid
        rcases segBoundary_headEsc st hs m pos hhs hm segs inSel with hemp | hhead
        · rw [hemp]
          simp only [List.nil_append]
          rw [hud]
          dsimp only
          rw [hround]
          have hts : (b :: rest).take s = b :: rest.take (s - 1) := by
            have hss : s = (s - 1) + 1 := by omega
            conv_lhs => rw [hss]
            rw [List.take_succ_cons]
          rw [hts]
          simp only [List.cons_append]
          by_cases hpar : isParamByte b
          · have hb : b < 0x80 := by
              simp only [isParamByte, Bool.or_eq_true, Bool.and_eq_true,
                decide_eq_true_eq] at hpar
              omega
            have hs1 : s = 1 := by
              simp only [utf8DecodeClean] at hdec
              rw [if_pos hb] at hdec
              simp only [Option.some.injEq, Prod.mk.injEq] at hdec
              omega
            subst hs1
            simp only [Nat.sub_self, List.take_zero, List.nil_append,
              List.drop_succ_cons, List.drop_zero]
            simp only [matchCsi, hpar, if_true]
            have hcsir : matchCsi rest (k + 1) = none := by
              simp only [matchCsi, hpar, if_true] at hcsi
              exact hcsi
            refine ih rest ?_ _ _ _ ?_ hcsir
            · simp only [List.length_cons] at hl
              omega
            · simpa using hvrest
          · by_cases hfin : isFinalByte b
            · exfalso
              simp only [matchCsi, hpar, hfin, if_false, if_true] at hcsi
              simp at hcsi
            · simp [matchCsi, hpar, hfin]
        · rcases hsb : (segBoundary segs st hs m inSel pos).1 with _ | ⟨x, xs⟩
          · rw [hsb] at hhead
            simp at hhead
          · have hx : x = 0x1B := by
              rw [hsb] at hhead
              simpa using hhead
            subst hx
            simp only [List.cons_append]
            simp [matchCsi, isParamByte, isFinalByte]
      · rw [pass2_matched segs st hs m inSel pos hma]
        have hb27 : b = 0x1B := by
          have := matchAnsi_head hma
          simpa using this
        have hge := matchAnsi_ge_two hma
        have hts : (b :: rest).take n2 = b :: rest.take (n2 - 1) := by
          have hss : n2 = (n2 - 1) + 1 := by omega
          conv_lhs => rw [hss]
          rw [List.take_succ_cons]
        rw [hts, hb27]
        simp only [List.cons_append]
        simp [matchCsi, isParamByte, isFinalByte]

theorem pass2_esc_safe (segs : List Segment) (st : LineType) (hs : List Nat)
    (m : List (Nat × List Nat)) (hhs : matchAnsi hs = some hs.length)
    (hm : goodMap m) (l : List Nat) (inSel : Bool) (pos : Nat)
    (hvalid : validUtf8 l = true) (hesc : matchAnsi (0x1B :: l) = none) :
    matchAnsi (0x1B :: pass2 l segs st hs m inSel pos) = none := by
  match l with
  | [] =>
    rw [pass2_nil]
    split_ifs with hsel
    · decide
    · decide
  | c :: rest =>
    have hfacts : twoByteClass c = false ∧ (c = 0x5B → matchCsi rest 2 = none) := by
      simp only [matchAnsi, if_true] at hesc
      by_cases h1 : twoByteClass c
      · rw [if_pos h1] at hesc
        simp at hesc
      · refine ⟨by simpa using h1, ?_⟩
        intro hc
        rw [if_neg h1, if_pos hc] at hesc
        exact hesc
    obtain ⟨htc, hcsi⟩ := hfacts
    rcases hma : matchAnsi (c :: rest) with _ | n2
    · rw [pass2_visible segs st hs m inSel pos hma]
      obtain ⟨r, s, hdec⟩ := validUtf8_decode hvalid
      have hud : utf8Decode (c :: rest) = (r, s) := by
        simp [utf8Decode, hdec]
      have hround := (utf8_clean_roundtrip hdec).1
      have hsz := utf8DecodeClean_size_pos hdec
      rcases segBoundary_headEsc st hs m pos hhs hm segs inSel with hemp | hhead
      · rw [hemp]
        simp only [List.nil_append]
        rw [hud]
        dsimp only
        rw [hround]
        have hts : (c :: rest).take s = c :: rest.take (s - 1) := by
          have hss : s = (s - 1) + 1 := by omega
          conv_lhs => rw [hss]
          rw [List.take_succ_cons]
        rw [hts]
        simp only [List.cons_append]
        by_cases hc : c = 0x5B
        · subst hc
          have hs1 : s = 1 := by
            simp only [utf8DecodeClean] at hdec
            rw [if_pos (by omega)] at hdec
            simp only [Option.some.injEq, Prod.mk.injEq] at hdec
            omega
          subst hs1
          simp only [Nat.sub_self, List.take_zero, List.nil_append,
            List.drop_succ_cons, List.drop_zero]
          simp only [matchAnsi, twoByteClass]
          norm_num
          have hvrest : validUtf8 rest = true := by
            have hvs := validUtf8_some hdec
            rw [hvs] at hvalid
            simpa using hvalid
          exact pass2_csi_safe segs st hs m hhs hm rest.length rest (le_refl _)
            _ _ 2 hvrest (hcsi rfl)
        · simp [matchAnsi, htc, hc]
      · rcases hsb : (segBoundary segs st hs m inSel pos).1 with _ | ⟨x, xs⟩
        · rw [hsb] at hhead
          simp at hhead
        · have hx : x = 0x1B := by
            rw [hsb] at hhead
            simpa using hhead
          subst hx
          simp only [List.cons_append]
          simp [matchAnsi, twoByteClass]
    · rw [pass2_matched segs st hs m inSel pos hma]
      have hc27 : c = 0x1B := by
        have := matchAnsi_head hma
        simpa using this
      have hge := matchAnsi_ge_two hma
      have hts : (c :: rest).take n2 = c :: rest.take (n2 - 1) := by
        have hss : n2 = (n2 - 1) + 1 := by omega
        conv_lhs => rw [hss]
        rw [List.take_succ_cons]
      rw [hts, hc27]
      simp only [List.cons_append]
      simp [matchAnsi, twoByteClass]

theorem pass2_strip (segs : List Segment) (st : LineType) (hs : List Nat)
    (m : List (Nat × List Nat)) (hhs : matchAnsi hs = some hs.length)
    (hm : goodMap m) :
    ∀ (n : Nat) (l : List Nat), l.length ≤ n → ∀ (inSel : Bool) (pos : Nat),
    validUtf8 l = true →
    StripANSI (pass2 l segs st hs m inSel pos) = StripANSI l := by
  intro n
  induction n with
  | zero =>
    intro l hl inSel pos hvalid
    have hnil : l = [] := List.eq_nil_of_length_eq_zero (Nat.le_zero.mp hl)
    subst hnil
    rw [pass2_nil]
    split_ifs with hsel
    · simp [StripANSI, matchAnsi, matchCsi, isParamByte, isFinalByte, twoByteClass,
        escReset]
    · rfl
  | succ q ih =>
    intro l hl inSel pos hvalid
    match l with
    | [] =>
      rw [pass2_nil]
      split_ifs with hsel
      · simp [StripANSI, matchAnsi, matchCsi, isParamByte, isFinalByte, twoByteClass,
          escReset]
      · rfl
    | b :: rest =>
      rcases hma : matchAnsi (b :: rest) with _ | n2
      · rw [pass2_visible segs st hs m inSel pos hma]
        obtain ⟨r, s, hdec⟩ := validUtf8_decode hvalid
        have hud : utf8Decode (b :: rest) = (r, s) := by
          simp [utf8Decode, hdec]
        obtain ⟨hround, hbytes⟩ := utf8_clean_roundtrip hdec
        have hsz := utf8DecodeClean_size_pos hdec
        have hvrest : validUtf8 ((b :: rest).drop s) = true := by
          rw [← validUtf8_some hdec]
          exact hvalid
        rw [hud]
        dsimp only
        rw [hround]
        rw [List.append_assoc]
        rw [segBoundary_neutral st hs m pos hhs hm segs inSel]
        have hih : StripANSI (pass2 ((b :: rest).drop s) segs st hs m
            (segBoundary segs st hs m inSel pos).2 (pos + 1)) =
            StripANSI ((b :: rest).drop s) := by
          refine ih _ ?_ _ _ hvrest
          simp only [List.length_drop, List.length_cons] at hl ⊢
          omega
        by_cases hb27 : b = 0x1B
        · subst hb27
          have hs1 : s = 1 := by
            simp only [utf8DecodeClean] at hdec
            rw [if_pos (by omega)] at hdec
            simp only [Option.some.injEq, Prod.mk.injEq] at hdec
            omega
          subst hs1
          have hdrop : (0x1B :: rest).drop 1 = rest := rfl
          rw [hdrop] at hih hvrest
          have htake : (0x1B :: rest).take 1 = [0x1B] := rfl
          rw [htake]
          have hesc2 := pass2_esc_safe segs st hs m hhs hm rest
            ((segBoundary segs st hs m inSel pos).2) (pos + 1) hvrest hma
          rw [List.singleton_append, hdrop]
          rw [stripAnsi_none hesc2, hih, stripAnsi_none hma]
        · have hnoesc : ∀ x ∈ (b :: rest).take s, x ≠ 0x1B := by
            intro x hx
            rcases hbytes x hx with hx2 | hx2
            · rw [hx2]
              exact hb27
            · omega
          rw [stripAnsi_no_esc hnoesc]
          rw [hih]
          conv_rhs => rw [← List.take_append_drop s (b :: rest)]
          rw [stripAnsi_no_esc hnoesc]
      · rw [pass2_matched segs st hs m inSel pos hma]
        have hge := matchAnsi_ge_two hma
        rw [stripAnsi_cancel (matchAnsi_take_full hma)]
        rw [stripAnsi_some hma]
        refine ih _ ?_ _ _ ?_
        · simp only [List.length_drop, List.length_cons] at hl ⊢
          omega
        · exact validUtf8_drop_ascii n2 (b :: rest) (matchAnsi_bytes hma) hvalid

/-- C1 (amended): for valid-UTF-8 `content`, any segment list, and the SGR
highlight style the renderers use (any full ANSI match), stripping all
styling escape sequences from `ApplyHighlighting`'s output yields exactly the
visible characters of `content`, in order and unchanged. -/
theorem claim_C1_strip_preserves_visible (content : List Nat)
    (segments : List Segment) (segType : LineType) (hstyle : List Nat)
    (hvalid : validUtf8 content = true)
    (hfull : matchAnsi hstyle = some hstyle.length) :
    StripANSI (ApplyHighlighting content segments segType hstyle) =
      StripANSI content := by
  unfold ApplyHighlighting
  split_ifs with hseg
  · rfl
  · exact pass2_strip segments segType hstyle _ hfull
      (pass1_goodMap content 0 escReset [] escReset_full (by intro p hp; simp at hp))
      content.length content (le_refl _) false 0 hvalid

/-- C1's counterexample to the unamended claim: on content that is not valid
UTF-8 — the single byte 0xFF — `sb.WriteRune` re-encodes the decoded
replacement character U+FFFD, so the visible bytes change. -/
theorem claim_C1_counterexample :
    StripANSI (ApplyHighlighting [0xFF] [⟨0, 1, LineAdded, [0xFF]⟩]
        LineAdded hlStyle) ≠ StripANSI [0xFF] := by
  simp [ApplyHighlighting, pass1, pass2, segBoundary, StripANSI, hlStyle, strBytes,
    encodeValidUtf8, matchAnsi, matchCsi, isParamByte, isFinalByte, twoByteClass,
    utf8Decode, utf8DecodeClean, writeRune, mapLookup, mapInsert, escReset]

/-- Witness for the amended C1 at a concrete styled content. -/
theorem claim_C1_witness :
    validUtf8 (strBytes "a\x1b[31mαb\x1b[0mc") = true ∧
    matchAnsi hlStyle = some hlStyle.length ∧
    StripANSI (ApplyHighlighting (strBytes "a\x1b[31mαb\x1b[0mc")
        [⟨1, 3, LineAdded, strBytes "αb"⟩] LineAdded hlStyle) =
      StripANSI (strBytes "a\x1b[31mαb\x1b[0mc") := by
  refine ⟨?_, ?_, ?_⟩
  · simp [validUtf8, utf8DecodeClean, strBytes, encodeValidUtf8]
  · simp [hlStyle, strBytes, encodeValidUtf8, matchAnsi, matchCsi, isParamByte,
      isFinalByte, twoByteClass]
  · exact claim_C1_strip_preserves_visible (strBytes "a\x1b[31mαb\x1b[0mc")
      [⟨1, 3, LineAdded, strBytes "αb"⟩] LineAdded hlStyle
      (by simp [validUtf8, utf8DecodeClean, strBytes, encodeValidUtf8])
      (by simp [hlStyle, strBytes, encodeValidUtf8, matchAnsi, matchCsi, isParamByte,
        isFinalByte, twoByteClass])
